import Mathlib

/-!
Shallow embedding of the virtual memory manager in `src/main.py`:
the block record (`MemoryBlock`), the manager state (`MemoryManager`) and
the five public operations `alloc`, `free`, `defragment`, `write`, `read`.
Python exceptions are modelled by the spec's error kinds; every operation
returns its result (or error) together with the post state, so that the
state visible after a raised exception is explicit. Python's `dict` is
modelled by an association list in insertion order: assignment to a
present key updates the entry in place, assignment to an absent key
appends, `pop` removes.
-/

namespace VMM

/-- Error kinds of the spec's taxonomy, one per raise site of the code:
`ValueError` on sizes/length becomes `invalidArgument`, `MemoryError`
becomes `outOfMemory`, the "Block ID does not exist" `ValueError` becomes
`unknownHandle`, `IndexError` becomes `outOfBounds`, and the "Data exceeds
block size" `ValueError` of `write` becomes `capacityExceeded`. -/
inductive MemErr where
  | invalidArgument
  | outOfMemory
  | unknownHandle
  | outOfBounds
  | capacityExceeded
deriving DecidableEq

/-- Translation of `MemoryBlock.__init__`: start offset, size, and the payload list
`[''] * size` — a list whose cells are Python strings, each initially
empty and holding one character once written. -/
structure MemoryBlock where
  start : Nat
  size : Nat
  data : List String
deriving DecidableEq

/-- A fresh block as built by `MemoryBlock(start, size)`. -/
def MemoryBlock.mkFresh (start size : Nat) : MemoryBlock :=
  { start := start, size := size, data := List.replicate size "" }

/-- The manager state: `self.size`, `self.memory` (the occupancy array of
`'-'`/`'X'` characters), `self.allocations` (the block table as an
insertion-ordered association list), `self.next_id`. The lock has no
effect on the sequential semantics and is not modelled. -/
structure MemoryManager where
  size : Nat
  memory : List Char
  allocations : List (Nat × MemoryBlock)
  next_id : Nat
deriving DecidableEq

/-- Membership test `block_id in self.allocations` for a Python dict. -/
def keyMem (l : List (Nat × MemoryBlock)) (k : Nat) : Bool :=
  l.any (fun p => p.1 == k)

/-- Access `self.allocations.get(block_id)` / `self.allocations[block_id]`. -/
def lookup (l : List (Nat × MemoryBlock)) (k : Nat) : Option MemoryBlock :=
  (l.find? (fun p => p.1 == k)).map Prod.snd

/-- Assignment `self.allocations[block_id] = v`: update in place when the key is
present (a dict keeps the entry's position), append when absent. -/
def dictSet (l : List (Nat × MemoryBlock)) (k : Nat) (v : MemoryBlock) :
    List (Nat × MemoryBlock) :=
  if keyMem l k then l.map (fun p => if p.1 == k then (k, v) else p)
  else l ++ [(k, v)]

/-- Removal effect of `self.allocations.pop(block_id, None)`. -/
def dictPop (l : List (Nat × MemoryBlock)) (k : Nat) : List (Nat × MemoryBlock) :=
  l.filter (fun p => p.1 != k)

/-- The loop `for j in range(i, i + size): mem[j] = c`. -/
def markRange (mem : List Char) (i size : Nat) (c : Char) : List Char :=
  (List.range size).foldl (fun acc j => acc.set (i + j) c) mem

/-- The test `all(self.memory[j] == '-' for j in range(i, i + size))`. -/
def isFreeRange (mem : List Char) (i size : Nat) : Bool :=
  (List.range size).all (fun j => mem.getD (i + j) 'X' == '-')

/-- The `while i <= len(self.memory) - size` scan of `alloc`, returning
the first offset whose range is entirely free. -/
def findFit (mem : List Char) (size : Nat) : Option Nat :=
  (List.range (mem.length - size + 1)).find? (fun i => isFreeRange mem i size)

/-- Translation of `MemoryManager.__init__(size)`: rejects `size <= 0`, otherwise starts
with an all-free occupancy array, an empty table and `next_id = 1`. -/
def MemoryManager.mkInit (size : Int) : Except MemErr MemoryManager :=
  if size ≤ 0 then .error .invalidArgument
  else .ok { size := size.toNat, memory := List.replicate size.toNat '-',
             allocations := [], next_id := 1 }

/-- Translation of `MemoryManager.alloc(size)`: validate `size`, first-fit scan, mark the
found range occupied, insert a fresh block under the next handle. -/
def MemoryManager.alloc (m : MemoryManager) (size : Int) :
    Except MemErr Nat × MemoryManager :=
  if size ≤ 0 ∨ size > (m.memory.length : Int) then (.error .invalidArgument, m)
  else
    match findFit m.memory size.toNat with
    | some i =>
      (.ok m.next_id,
       { m with memory := markRange m.memory i size.toNat 'X',
                next_id := m.next_id + 1,
                allocations := (dictSet m.allocations m.next_id
                  (MemoryBlock.mkFresh i size.toNat)) })
    | none => (.error .outOfMemory, m)

/-- Translation of `MemoryManager.free(block_id)`: unknown handles are rejected before
any mutation; otherwise the entry is popped and its range marked free.
The `if not block: return False` branch of the source is unreachable
after the membership check but is kept. -/
def MemoryManager.free (m : MemoryManager) (block_id : Nat) :
    Except MemErr Bool × MemoryManager :=
  if ¬ keyMem m.allocations block_id then (.error .unknownHandle, m)
  else
    match lookup m.allocations block_id with
    | none => (.ok false, m)
    | some block =>
      (.ok true,
       { m with allocations := dictPop m.allocations block_id,
                memory := markRange m.memory block.start block.size '-' })

/-- One iteration of the `defragment` loop body: mark the block's new
range in `new_memory`, insert the relocated block (with its payload
copied) into `new_allocations`, advance the cursor. -/
def defragStep (acc : List Char × List (Nat × MemoryBlock) × Nat)
    (p : Nat × MemoryBlock) : List Char × List (Nat × MemoryBlock) × Nat :=
  (markRange acc.1 acc.2.2 p.2.size 'X',
   dictSet acc.2.1 p.1 ({ start := acc.2.2, size := p.2.size, data := p.2.data }),
   acc.2.2 + p.2.size)

/-- Translation of `MemoryManager.defragment()`: iterate over the live blocks sorted by
their current start offset (Python's `sorted` is stable; `mergeSort`
matches), then replace memory and table wholesale. -/
def MemoryManager.defragment (m : MemoryManager) : MemoryManager :=
  let sorted := m.allocations.mergeSort (fun a b => decide (a.2.start ≤ b.2.start))
  let r := sorted.foldl defragStep (List.replicate m.memory.length '-', [], 0)
  { m with memory := r.1, allocations := r.2.1 }

/-- The loop `for i, char in enumerate(data): block.data[offset + i] = char`:
each written cell holds the one-character string of the written char. -/
def writeChars (data : List String) (offset : Nat) : List Char → List String
  | [] => data
  | c :: cs => writeChars (data.set offset c.toString) (offset + 1) cs

/-- Translation of `MemoryManager.write(block_id, offset, data)`: validate handle,
offset, capacity, then overwrite the payload cells in place. -/
def MemoryManager.write (m : MemoryManager) (block_id : Nat) (offset : Int)
    (data : String) : Except MemErr Unit × MemoryManager :=
  match lookup m.allocations block_id with
  | none => (.error .unknownHandle, m)
  | some block =>
    if offset < 0 ∨ offset ≥ (block.size : Int) then (.error .outOfBounds, m)
    else if (data.length : Int) > (block.size : Int) - offset then
      (.error .capacityExceeded, m)
    else
      (.ok (),
       { m with allocations := (dictSet m.allocations block_id
           ({ block with data := writeChars block.data offset.toNat data.data })) })

/-- Translation of `MemoryManager.read(block_id, offset, length)`: the validation chain
of the source in its order — handle, negative offset, non-positive
length, two region-level bounds checks, a second handle lookup, the
block-level bounds check — then `''.join(block.data[offset:offset+length])`. -/
def MemoryManager.read (m : MemoryManager) (block_id : Nat) (offset length : Int) :
    Except MemErr String × MemoryManager :=
  if ¬ keyMem m.allocations block_id then (.error .unknownHandle, m)
  else if offset < 0 then (.error .outOfBounds, m)
  else if length ≤ 0 then (.error .invalidArgument, m)
  else if offset ≥ (m.memory.length : Int) then (.error .outOfBounds, m)
  else if offset + length > (m.memory.length : Int) then (.error .outOfBounds, m)
  else
    match lookup m.allocations block_id with
    | none => (.error .unknownHandle, m)
    | some block =>
      if offset < 0 ∨ offset + length > (block.size : Int) then (.error .outOfBounds, m)
      else (.ok (String.join ((block.data.drop offset.toNat).take length.toNat)), m)

/-- A public mutating call with its arguments. -/
inductive Op where
  | allocOp (size : Int)
  | freeOp (id : Nat)
  | defragOp
  | writeOp (id : Nat) (offset : Int) (data : String)
  | readOp (id : Nat) (offset length : Int)

/-- The state after running one public call (failed calls leave the state
they produced, which the definitions pair with every error). -/
def applyOp (m : MemoryManager) : Op → MemoryManager
  | .allocOp s => (m.alloc s).2
  | .freeOp i => (m.free i).2
  | .defragOp => m.defragment
  | .writeOp i o d => (m.write i o d).2
  | .readOp i o l => (m.read i o l).2

/-- States reachable from a freshly constructed manager by any sequence
of public calls. -/
inductive Reachable : MemoryManager → Prop where
  | mk0 (size : Int) (m : MemoryManager) :
      MemoryManager.mkInit size = .ok m → Reachable m
  | step (m : MemoryManager) (op : Op) : Reachable m → Reachable (applyOp m op)

/-- Position `j` lies inside the range of some live block of the table. -/
def covered (l : List (Nat × MemoryBlock)) (j : Nat) : Prop :=
  ∃ p ∈ l, p.2.start ≤ j ∧ j < p.2.start + p.2.size

instance (l : List (Nat × MemoryBlock)) (j : Nat) : Decidable (covered l j) := by
  unfold covered; exact inferInstance

/-- The half-open ranges of two blocks do not intersect. -/
def RangesDisjoint (a b : MemoryBlock) : Prop :=
  a.start + a.size ≤ b.start ∨ b.start + b.size ≤ a.start

instance (a b : MemoryBlock) : Decidable (RangesDisjoint a b) := by
  unfold RangesDisjoint; exact inferInstance

/-- Well-formedness of a manager state: the structural facts that hold in
every reachable state. -/
structure WF (m : MemoryManager) : Prop where
  mem_len : m.memory.length = m.size
  size_pos : ∀ p ∈ m.allocations, 1 ≤ p.2.size
  in_range : ∀ p ∈ m.allocations, p.2.start + p.2.size ≤ m.size
  data_len : ∀ p ∈ m.allocations, p.2.data.length = p.2.size
  handle_pos : ∀ p ∈ m.allocations, 1 ≤ p.1
  handle_lt : ∀ p ∈ m.allocations, p.1 < m.next_id
  keys_nodup : (m.allocations.map Prod.fst).Nodup
  disj : m.allocations.Pairwise (fun a b => RangesDisjoint a.2 b.2)
  sync : ∀ j < m.memory.length,
    m.memory.getD j ' ' = if covered m.allocations j then 'X' else '-'
  next_pos : 1 ≤ m.next_id

/-- The relocated table produced by the defragment loop from a given
cursor: each block keeps its handle, size and payload, and is assigned
the running cursor as its new start. -/
def packAllocs : List (Nat × MemoryBlock) → Nat → List (Nat × MemoryBlock)
  | [], _ => []
  | p :: rest, curr =>
    (p.1, { start := curr, size := p.2.size, data := p.2.data }) ::
      packAllocs rest (curr + p.2.size)

/-- Total size of the blocks of a table. -/
def sizeSum (l : List (Nat × MemoryBlock)) : Nat :=
  (l.map (fun p => p.2.size)).sum

/-- Entry `a`'s range ends no later than entry `b`'s range starts. -/
def chainRel (a b : Nat × MemoryBlock) : Prop :=
  a.2.start + a.2.size ≤ b.2.start

/-- Handle `h` is absent from the table and below the next-handle
counter; this is what a freed handle satisfies from then on. -/
def Avoided (h : Nat) (m : MemoryManager) : Prop :=
  h < m.next_id ∧ keyMem m.allocations h = false

/-- A freshly constructed manager of region size 3. -/
def mgrA : MemoryManager :=
  { size := 3, memory := ['-', '-', '-'], allocations := [], next_id := 1 }

/-- The size-3 manager after `alloc(3)`. -/
def mgrB : MemoryManager := applyOp mgrA (Op.allocOp 3)

/-- A size-3 manager holding one size-1 block at offset 0. -/
def mgrC : MemoryManager :=
  { size := 3, memory := ['X', '-', '-'],
    allocations := [(1, { start := 0, size := 1, data := [""] })], next_id := 2 }

/-- A fragmented size-5 manager: blocks at offsets 0 and 2, handles 1 and 3. -/
def mgrD : MemoryManager :=
  { size := 5, memory := ['X', '-', 'X', '-', '-'],
    allocations := [(1, { start := 0, size := 1, data := ["a"] }),
                    (3, { start := 2, size := 1, data := [""] })], next_id := 4 }

/-! ### Association-list (dict) lemmas -/

theorem keyMem_iff {l : List (Nat × MemoryBlock)} {k : Nat} :
    keyMem l k = true ↔ ∃ b, (k, b) ∈ l := by
  simp only [keyMem, List.any_eq_true, beq_iff_eq]
  constructor
  · rintro ⟨⟨k', b⟩, hp, rfl⟩; exact ⟨b, hp⟩
  · rintro ⟨b, hb⟩; exact ⟨(k, b), hb, rfl⟩

theorem lookup_mem {l : List (Nat × MemoryBlock)} {k : Nat} {b : MemoryBlock}
    (h : lookup l k = some b) : (k, b) ∈ l := by
  unfold lookup at h
  cases hf : l.find? (fun p => p.1 == k) with
  | none => rw [hf] at h; simp at h
  | some p =>
    rw [hf] at h
    have hp := List.find?_some hf
    have hm := List.mem_of_find?_eq_some hf
    obtain ⟨k', b'⟩ := p
    simp at hp h
    subst hp; subst h; exact hm

theorem lookup_isSome_of_keyMem {l : List (Nat × MemoryBlock)} {k : Nat}
    (h : keyMem l k = true) : ∃ b, lookup l k = some b := by
  obtain ⟨b, hb⟩ := keyMem_iff.mp h
  have : (l.find? (fun p => p.1 == k)).isSome := by
    rw [List.find?_isSome]; exact ⟨(k, b), hb, by simp⟩
  obtain ⟨p, hp⟩ := Option.isSome_iff_exists.mp this
  exact ⟨p.2, by simp [lookup, hp]⟩

theorem keyMem_of_lookup {l : List (Nat × MemoryBlock)} {k : Nat} {b : MemoryBlock}
    (h : lookup l k = some b) : keyMem l k = true :=
  keyMem_iff.mpr ⟨b, lookup_mem h⟩

theorem lookup_eq_none_of_keyMem_false {l : List (Nat × MemoryBlock)} {k : Nat}
    (h : keyMem l k = false) : lookup l k = none := by
  unfold lookup
  rw [List.find?_eq_none.mpr]
  · rfl
  · intro p hp hpk
    simp only [keyMem, List.any_eq_false] at h
    exact h p hp hpk

theorem dictSet_of_keyMem_false {l : List (Nat × MemoryBlock)} {k : Nat}
    {v : MemoryBlock} (h : keyMem l k = false) : dictSet l k v = l ++ [(k, v)] := by
  unfold dictSet; rw [h]; simp

theorem dictSet_keys_of_keyMem {l : List (Nat × MemoryBlock)} {k : Nat}
    {v : MemoryBlock} (h : keyMem l k = true) :
    (dictSet l k v).map Prod.fst = l.map Prod.fst := by
  unfold dictSet
  rw [h]; simp only [if_pos rfl, ite_true]
  rw [List.map_map]
  apply List.map_congr_left
  intro p _
  by_cases hp : p.1 = k
  · simp [hp]
  · simp [hp]

theorem lookup_map_update {l : List (Nat × MemoryBlock)} {k : Nat} {v : MemoryBlock}
    (h : keyMem l k = true) :
    lookup (l.map (fun p => if p.1 == k then (k, v) else p)) k = some v := by
  induction l with
  | nil => simp [keyMem] at h
  | cons p rest ih =>
    rw [List.map_cons]
    by_cases hp : p.1 = k
    · rw [show (if (p.1 == k) = true then (k, v) else p) = (k, v) by simp [hp]]
      simp [lookup]
    · rw [show (if (p.1 == k) = true then (k, v) else p) = p by simp [hp]]
      have hrest : keyMem rest k = true := by simpa [keyMem, hp] using h
      simpa [lookup, List.find?_cons, show (p.1 == k) = false by simpa using hp]
        using ih hrest

theorem lookup_map_update_ne {l : List (Nat × MemoryBlock)} {k k' : Nat}
    {v : MemoryBlock} (hne : k' ≠ k) :
    lookup (l.map (fun p => if p.1 == k then (k, v) else p)) k' = lookup l k' := by
  induction l with
  | nil => rfl
  | cons p rest ih =>
    rw [List.map_cons]
    by_cases hp : p.1 = k
    · rw [show (if (p.1 == k) = true then (k, v) else p) = (k, v) by simp [hp]]
      simpa [lookup, List.find?_cons,
        show (k == k') = false by simp [Ne.symm hne],
        show (p.1 == k') = false by simp [hp, Ne.symm hne]] using ih
    · rw [show (if (p.1 == k) = true then (k, v) else p) = p by simp [hp]]
      simp only [lookup, List.find?_cons]
      cases hpk : (p.1 == k') with
      | true => rfl
      | false => simpa [lookup] using ih

theorem lookup_dictSet_self {l : List (Nat × MemoryBlock)} {k : Nat}
    {v : MemoryBlock} : lookup (dictSet l k v) k = some v := by
  unfold dictSet
  by_cases h : keyMem l k
  · rw [if_pos h]
    exact lookup_map_update h
  · rw [if_neg h]
    simp only [Bool.not_eq_true] at h
    unfold lookup
    rw [List.find?_append, List.find?_eq_none.mpr]
    · simp
    · intro p hp hpk
      simp only [keyMem, List.any_eq_false] at h
      exact h p hp hpk

theorem lookup_dictSet_ne {l : List (Nat × MemoryBlock)} {k k' : Nat}
    {v : MemoryBlock} (hne : k' ≠ k) : lookup (dictSet l k v) k' = lookup l k' := by
  unfold dictSet
  by_cases h : keyMem l k
  · rw [if_pos h]
    exact lookup_map_update_ne hne
  · rw [if_neg h]
    unfold lookup
    rw [List.find?_append]
    cases hf : l.find? (fun p => p.1 == k') with
    | some p => simp
    | none => simp [show (k == k') = false by simp [Ne.symm hne]]

theorem mem_dictPop {l : List (Nat × MemoryBlock)} {k : Nat} {p : Nat × MemoryBlock} :
    p ∈ dictPop l k ↔ p ∈ l ∧ p.1 ≠ k := by
  simp [dictPop, List.mem_filter]

theorem dictPop_sublist {l : List (Nat × MemoryBlock)} {k : Nat} :
    (dictPop l k).Sublist l := List.filter_sublist l

/-! ### markRange lemmas -/

theorem markRange_zero (mem : List Char) (i : Nat) (c : Char) :
    markRange mem i 0 c = mem := rfl

theorem markRange_succ (mem : List Char) (i n : Nat) (c : Char) :
    markRange mem i (n + 1) c = (markRange mem i n c).set (i + n) c := by
  unfold markRange
  rw [List.range_succ, List.foldl_append]
  rfl

@[simp] theorem markRange_length (mem : List Char) (i n : Nat) (c : Char) :
    (markRange mem i n c).length = mem.length := by
  induction n with
  | zero => rfl
  | succ n ih => rw [markRange_succ]; simp [ih]

theorem markRange_getElem? (mem : List Char) (i n : Nat) (c : Char) (j : Nat) :
    (markRange mem i n c)[j]? =
      if i ≤ j ∧ j < i + n ∧ j < mem.length then some c else mem[j]? := by
  induction n with
  | zero =>
    rw [markRange_zero, if_neg]
    omega
  | succ n ih =>
    rw [markRange_succ]
    by_cases hj : j = i + n
    · subst hj
      by_cases hlen : i + n < mem.length
      · rw [List.getElem?_set_self (by rw [markRange_length]; exact hlen)]
        rw [if_pos ⟨by omega, by omega, hlen⟩]
      · rw [List.set_eq_of_length_le (by rw [markRange_length]; omega), ih,
          if_neg (by omega), if_neg (by omega)]
    · rw [List.getElem?_set_ne (by omega), ih]
      by_cases hc : i ≤ j ∧ j < i + n ∧ j < mem.length
      · rw [if_pos hc, if_pos ⟨hc.1, by omega, hc.2.2⟩]
      · rw [if_neg hc, if_neg (by omega)]

theorem markRange_getD (mem : List Char) (i n : Nat) (c : Char) (j : Nat) (d : Char)
    (h : j < mem.length) :
    (markRange mem i n c).getD j d = if i ≤ j ∧ j < i + n then c else mem.getD j d := by
  rw [List.getD_eq_getElem?_getD, List.getD_eq_getElem?_getD, markRange_getElem?]
  by_cases hc : i ≤ j ∧ j < i + n
  · rw [if_pos ⟨hc.1, hc.2, h⟩, if_pos hc]; rfl
  · rw [if_neg (by omega), if_neg hc]

/-! ### findFit lemmas -/

theorem isFreeRange_iff {mem : List Char} {i n : Nat} :
    isFreeRange mem i n = true ↔ ∀ j, i ≤ j → j < i + n → mem.getD j 'X' = '-' := by
  simp only [isFreeRange, List.all_eq_true, List.mem_range, beq_iff_eq]
  constructor
  · intro h j h1 h2
    have := h (j - i) (by omega)
    rwa [show i + (j - i) = j by omega] at this
  · intro h j hj
    exact h (i + j) (by omega) (by omega)

theorem find?_range_eq_some {p : Nat → Bool} {n i : Nat} :
    (List.range n).find? p = some i ↔ i < n ∧ p i = true ∧ ∀ j < i, p j = false := by
  induction n generalizing i with
  | zero => simp
  | succ n ih =>
    rw [List.range_succ, List.find?_append]
    cases hf : (List.range n).find? p with
    | some i' =>
      obtain ⟨h1, h2, h3⟩ := ih.mp hf
      rw [Option.or_some]
      constructor
      · rintro h
        rw [Option.some.injEq] at h
        subst h
        exact ⟨by omega, h2, h3⟩
      · rintro ⟨hi, hpi, hbelow⟩
        have : i = i' := by
          rcases Nat.lt_trichotomy i i' with h | h | h
          · exact absurd hpi (by rw [h3 i h]; simp)
          · exact h
          · exact absurd h2 (by rw [hbelow i' h]; simp)
        rw [this]
    | none =>
      have hall : ∀ j < n, p j = false := by
        intro j hj
        have := List.find?_eq_none.mp hf j (List.mem_range.mpr hj)
        simpa using this
      rw [Option.none_or, List.find?_singleton]
      by_cases hp : p n = true
      · rw [if_pos hp]
        constructor
        · rintro h
          rw [Option.some.injEq] at h
          subst h
          exact ⟨by omega, hp, hall⟩
        · rintro ⟨hi, hpi, hbelow⟩
          have : i = n := by
            by_contra hne
            exact absurd hpi (by rw [hall i (by omega)]; simp)
          rw [this]
      · rw [if_neg hp]
        constructor
        · intro h; simp at h
        · rintro ⟨hi, hpi, _⟩
          exfalso
          rcases Nat.lt_or_ge i n with h | h
          · exact absurd hpi (by rw [hall i h]; simp)
          · exact hp (by rwa [show n = i by omega])

theorem find?_range_eq_none {p : Nat → Bool} {n : Nat} :
    (List.range n).find? p = none ↔ ∀ j < n, p j = false := by
  rw [List.find?_eq_none]
  constructor
  · intro h j hj
    have := h j (List.mem_range.mpr hj)
    simpa using this
  · intro h x hx
    rw [h x (List.mem_range.mp hx)]
    simp

theorem findFit_eq_some {mem : List Char} {s i : Nat} (hs : s ≤ mem.length) :
    findFit mem s = some i ↔
      i + s ≤ mem.length ∧ isFreeRange mem i s = true ∧
      ∀ j < i, isFreeRange mem j s = false := by
  unfold findFit
  rw [find?_range_eq_some]
  constructor
  · rintro ⟨h1, h2, h3⟩; exact ⟨by omega, h2, h3⟩
  · rintro ⟨h1, h2, h3⟩; exact ⟨by omega, h2, h3⟩

theorem findFit_eq_none {mem : List Char} {s : Nat} (hs : s ≤ mem.length) :
    findFit mem s = none ↔ ∀ i, i + s ≤ mem.length → isFreeRange mem i s = false := by
  unfold findFit
  rw [find?_range_eq_none]
  constructor
  · intro h i hi; exact h i (by omega)
  · intro h j hj; exact h j (by omega)

/-! ### writeChars lemmas -/

@[simp] theorem writeChars_length (data : List String) (o : Nat) (cs : List Char) :
    (writeChars data o cs).length = data.length := by
  induction cs generalizing data o with
  | nil => rfl
  | cons c cs ih =>
    rw [show writeChars data o (c :: cs) = writeChars (data.set o c.toString) (o + 1) cs
      from rfl, ih]
    simp

theorem writeChars_getElem? (data : List String) (o : Nat) (cs : List Char) (j : Nat) :
    (writeChars data o cs)[j]? =
      if o ≤ j ∧ j < o + cs.length ∧ j < data.length
      then some (cs.getD (j - o) ' ').toString
      else data[j]? := by
  induction cs generalizing data o with
  | nil =>
    rw [show writeChars data o [] = data from rfl, if_neg]
    simp only [List.length_nil]
    omega
  | cons c cs ih =>
    rw [show writeChars data o (c :: cs) = writeChars (data.set o c.toString) (o + 1) cs
      from rfl, ih]
    simp only [List.length_set, List.length_cons]
    by_cases h1 : o + 1 ≤ j ∧ j < o + 1 + cs.length ∧ j < data.length
    · rw [if_pos h1, if_pos (by omega)]
      have : j - o = (j - (o + 1)) + 1 := by omega
      rw [this, List.getD_cons_succ]
    · rw [if_neg h1]
      by_cases h2 : j = o ∧ j < data.length
      · obtain ⟨rfl, hlen⟩ := h2
        rw [List.getElem?_set_self hlen, if_pos (by omega)]
        simp
      · have hout : ¬ (o ≤ j ∧ j < o + (cs.length + 1) ∧ j < data.length) := by omega
        rw [if_neg hout]
        by_cases hj : j = o
        · subst hj
          rw [List.set_eq_of_length_le (by omega)]
        · rw [List.getElem?_set_ne (fun h => hj h.symm)]

theorem writeChars_getD (data : List String) (o : Nat) (cs : List Char) (j : Nat)
    (d : String) :
    (writeChars data o cs).getD j d =
      if o ≤ j ∧ j < o + cs.length ∧ j < data.length
      then (cs.getD (j - o) ' ').toString
      else data.getD j d := by
  rw [List.getD_eq_getElem?_getD, List.getD_eq_getElem?_getD, writeChars_getElem?]
  by_cases h : o ≤ j ∧ j < o + cs.length ∧ j < data.length
  · rw [if_pos h, if_pos h]
    simp [List.getD_eq_getElem?_getD]
  · rw [if_neg h, if_neg h]
    simp [List.getD_eq_getElem?_getD]

/-! ### String.join of single-character strings -/

theorem data_toString (c : Char) : (Char.toString c).data = [c] := rfl

theorem foldl_append_map_toString (cs : List Char) (init : String) :
    List.foldl (fun r s => r ++ s) init (cs.map Char.toString) =
      ⟨init.data ++ cs⟩ := by
  induction cs generalizing init with
  | nil =>
    apply String.ext
    simp
  | cons c cs ih =>
    rw [List.map_cons, List.foldl_cons, ih]
    apply String.ext
    simp [data_toString]

theorem join_map_toString (cs : List Char) :
    String.join (cs.map Char.toString) = ⟨cs⟩ := by
  rw [show String.join (cs.map Char.toString) =
    List.foldl (fun r s => r ++ s) "" (cs.map Char.toString) from rfl,
    foldl_append_map_toString]
  rfl

theorem slice_writeChars (data : List String) (o : Nat) (cs : List Char)
    (h : o + cs.length ≤ data.length) :
    ((writeChars data o cs).drop o).take cs.length = cs.map Char.toString := by
  apply List.ext_getElem?
  intro n
  by_cases hn : n < cs.length
  · rw [List.getElem?_take_of_lt hn, List.getElem?_drop, writeChars_getElem?,
      if_pos (by omega)]
    rw [List.getElem?_map, show o + n - o = n by omega]
    rw [List.getElem?_eq_getElem hn]
    simp [List.getD_eq_getElem?_getD, List.getElem?_eq_getElem hn]
  · rw [List.getElem?_eq_none, List.getElem?_eq_none]
    · rw [List.length_map]; omega
    · rw [List.length_take]; omega

/-! ### packAllocs lemmas -/

theorem sizeSum_nil : sizeSum [] = 0 := rfl

theorem sizeSum_cons (p : Nat × MemoryBlock) (l : List (Nat × MemoryBlock)) :
    sizeSum (p :: l) = p.2.size + sizeSum l := by
  simp [sizeSum]

theorem sizeSum_perm {l₁ l₂ : List (Nat × MemoryBlock)} (h : l₁.Perm l₂) :
    sizeSum l₁ = sizeSum l₂ := by
  unfold sizeSum
  exact (h.map (fun p => p.2.size)).sum_eq

theorem packAllocs_keys (l : List (Nat × MemoryBlock)) (curr : Nat) :
    (packAllocs l curr).map Prod.fst = l.map Prod.fst := by
  induction l generalizing curr with
  | nil => rfl
  | cons p rest ih => simp [packAllocs, ih]

theorem packAllocs_mem (l : List (Nat × MemoryBlock)) (curr : Nat) :
    ∀ q ∈ packAllocs l curr, ∃ p ∈ l, q.1 = p.1 ∧ q.2.size = p.2.size ∧
      q.2.data = p.2.data ∧ curr ≤ q.2.start ∧
      q.2.start + q.2.size ≤ curr + sizeSum l := by
  induction l generalizing curr with
  | nil => intro q hq; simp [packAllocs] at hq
  | cons p rest ih =>
    intro q hq
    rw [packAllocs] at hq
    rcases List.mem_cons.mp hq with h | h
    · subst h
      refine ⟨p, List.mem_cons_self _ _, rfl, rfl, rfl, Nat.le_refl _, ?_⟩
      rw [sizeSum_cons]; dsimp only; omega
    · obtain ⟨p', hp', h1, h2, h3, h4, h5⟩ := ih (curr + p.2.size) q h
      refine ⟨p', List.mem_cons_of_mem _ hp', h1, h2, h3, by omega, ?_⟩
      rw [sizeSum_cons]; omega

theorem packAllocs_chain (l : List (Nat × MemoryBlock)) (curr : Nat) :
    (packAllocs l curr).Pairwise chainRel := by
  induction l generalizing curr with
  | nil => exact List.Pairwise.nil
  | cons p rest ih =>
    rw [packAllocs]
    refine List.Pairwise.cons ?_ (ih _)
    intro q hq
    obtain ⟨p', hp', _, _, _, h4, _⟩ := packAllocs_mem _ _ q hq
    exact h4

theorem packAllocs_covered_of (l : List (Nat × MemoryBlock)) :
    ∀ (curr j : Nat), curr ≤ j → j < curr + sizeSum l →
      covered (packAllocs l curr) j := by
  induction l with
  | nil => intro curr j h1 h2; rw [sizeSum_nil] at h2; omega
  | cons p rest ih =>
    intro curr j h1 h2
    rw [sizeSum_cons] at h2
    by_cases hj : j < curr + p.2.size
    · exact ⟨(p.1, { start := curr, size := p.2.size, data := p.2.data }),
        List.mem_cons_self _ _, h1, hj⟩
    · obtain ⟨q, hq, hh⟩ := ih (curr + p.2.size) j (by omega) (by omega)
      exact ⟨q, List.mem_cons_of_mem _ hq, hh⟩

theorem packAllocs_covered (l : List (Nat × MemoryBlock)) (curr j : Nat) :
    covered (packAllocs l curr) j ↔ curr ≤ j ∧ j < curr + sizeSum l := by
  constructor
  · rintro ⟨q, hq, h1, h2⟩
    obtain ⟨p, hp, _, _, _, h4, h5⟩ := packAllocs_mem l curr q hq
    constructor <;> omega
  · rintro ⟨h1, h2⟩
    exact packAllocs_covered_of l curr j h1 h2

theorem packAllocs_lookup :
    ∀ (l : List (Nat × MemoryBlock)) (curr : Nat),
      (l.map Prod.fst).Nodup → l.Pairwise chainRel →
      (∀ p ∈ l, 1 ≤ p.2.size) → ∀ (k : Nat) (b : MemoryBlock), (k, b) ∈ l →
      lookup (packAllocs l curr) k =
        some { start := curr + sizeSum (l.filter (fun q => decide (q.2.start < b.start))),
               size := b.size, data := b.data } := by
  intro l
  induction l with
  | nil => intro curr _ _ _ k b hmem; simp at hmem
  | cons p rest ih =>
    intro curr hnodup hchain hpos k b hmem
    have hforall := (List.pairwise_cons.mp hchain).1
    rcases List.mem_cons.mp hmem with h | h
    · have hpk : p.1 = k := by rw [← h]
      have hpb : p.2 = b := by rw [← h]
      have hfilter : (p :: rest).filter (fun q => decide (q.2.start < b.start)) = [] := by
        rw [List.filter_eq_nil_iff]
        intro q hq
        rcases List.mem_cons.mp hq with h' | h'
        · subst h'; simp [← hpb]
        · have := hforall q h'
          unfold chainRel at this
          simp only [decide_eq_true_eq]
          rw [← hpb]
          omega
      rw [hfilter, sizeSum_nil]
      rw [packAllocs]
      simp only [lookup, List.find?_cons, show (p.1 == k) = true by simp [hpk]]
      rw [← hpb]
      rfl
    · have hkr : k ∈ rest.map Prod.fst := List.mem_map_of_mem Prod.fst h
      have hnd : p.1 ∉ rest.map Prod.fst ∧ (rest.map Prod.fst).Nodup := by
        rw [List.map_cons] at hnodup
        exact List.nodup_cons.mp hnodup
      have hne : p.1 ≠ k := fun he => hnd.1 (he ▸ hkr)
      have hblt : p.2.start < b.start := by
        have hc := hforall (k, b) h
        unfold chainRel at hc
        dsimp only at hc
        have hps := hpos p (List.mem_cons_self _ _)
        omega
      rw [packAllocs]
      simp only [lookup, List.find?_cons, show (p.1 == k) = false by simpa using hne]
      have ihr := ih (curr + p.2.size) hnd.2
        (List.pairwise_cons.mp hchain).2
        (fun q hq => hpos q (List.mem_cons_of_mem _ hq)) k b h
      unfold lookup at ihr
      rw [ihr]
      congr 1
      rw [List.filter_cons_of_pos (by simpa using hblt), sizeSum_cons]
      congr 1
      omega

/-! ### The defragment fold -/

theorem keyMem_append {l₁ l₂ : List (Nat × MemoryBlock)} {k : Nat} :
    keyMem (l₁ ++ l₂) k = (keyMem l₁ k || keyMem l₂ k) := by
  simp [keyMem, List.any_append]

theorem defrag_foldl :
    ∀ (l : List (Nat × MemoryBlock)) (mem : List Char)
      (acc : List (Nat × MemoryBlock)) (curr : Nat),
      (∀ p ∈ l, keyMem acc p.1 = false) →
      (l.map Prod.fst).Nodup →
      l.Pairwise chainRel →
      (∀ p ∈ l, p.2.start + p.2.size ≤ mem.length) →
      (∀ p ∈ l, curr ≤ p.2.start) →
      curr ≤ mem.length →
      (l.foldl defragStep (mem, acc, curr)).2.1 = acc ++ packAllocs l curr ∧
      (l.foldl defragStep (mem, acc, curr)).2.2 = curr + sizeSum l ∧
      (l.foldl defragStep (mem, acc, curr)).1.length = mem.length ∧
      ∀ (j : Nat) (d : Char), j < mem.length →
        (l.foldl defragStep (mem, acc, curr)).1.getD j d =
          if curr ≤ j ∧ j < curr + sizeSum l then 'X' else mem.getD j d := by
  intro l
  induction l with
  | nil =>
    intro mem acc curr _ _ _ _ _ _
    refine ⟨by simp [packAllocs], by rfl, by rfl, ?_⟩
    intro j d hj
    rw [List.foldl_nil, sizeSum_nil, if_neg (by omega)]
  | cons p rest ih =>
    intro mem acc curr hfresh hnodup hchain hbound hcurr hlen
    rw [List.foldl_cons]
    have hstep : defragStep (mem, acc, curr) p =
        (markRange mem curr p.2.size 'X',
         acc ++ [(p.1, { start := curr, size := p.2.size, data := p.2.data })],
         curr + p.2.size) := by
      unfold defragStep
      rw [dictSet_of_keyMem_false (hfresh p (List.mem_cons_self _ _))]
    rw [hstep]
    have hpbound := hbound p (List.mem_cons_self _ _)
    have hpcurr := hcurr p (List.mem_cons_self _ _)
    have hnd : p.1 ∉ rest.map Prod.fst ∧ (rest.map Prod.fst).Nodup := by
      rw [List.map_cons] at hnodup
      exact List.nodup_cons.mp hnodup
    have hcforall := (List.pairwise_cons.mp hchain).1
    have ihm := ih (markRange mem curr p.2.size 'X')
      (acc ++ [(p.1, { start := curr, size := p.2.size, data := p.2.data })])
      (curr + p.2.size)
      (by
        intro q hq
        rw [keyMem_append]
        have h1 : keyMem acc q.1 = false := hfresh q (List.mem_cons_of_mem _ hq)
        have h2 : keyMem [(p.1, { start := curr, size := p.2.size, data := p.2.data })] q.1
            = false := by
          simp only [keyMem, List.any_cons, List.any_nil, Bool.or_false]
          have : q.1 ≠ p.1 := by
            intro he
            exact hnd.1 (he ▸ List.mem_map_of_mem Prod.fst hq)
          simpa using fun he => this he.symm
        rw [h1, h2]
        rfl)
      hnd.2
      (List.pairwise_cons.mp hchain).2
      (by
        intro q hq
        rw [markRange_length]
        exact hbound q (List.mem_cons_of_mem _ hq))
      (by
        intro q hq
        have := hcforall q hq
        unfold chainRel at this
        omega)
      (by rw [markRange_length]; omega)
    obtain ⟨ih1, ih2, ih3, ih4⟩ := ihm
    refine ⟨?_, ?_, ?_, ?_⟩
    · rw [ih1, packAllocs, List.append_assoc]
      rfl
    · rw [ih2, sizeSum_cons]
      omega
    · rw [ih3, markRange_length]
    · intro j d hj
      rw [ih4 j d (by rw [markRange_length]; exact hj),
        markRange_getD mem curr p.2.size 'X' j d hj, sizeSum_cons]
      by_cases h1 : curr + p.2.size ≤ j ∧ j < curr + p.2.size + sizeSum rest
      · rw [if_pos h1, if_pos (by omega)]
      · rw [if_neg h1]
        by_cases h2 : curr ≤ j ∧ j < curr + p.2.size
        · rw [if_pos h2, if_pos (by omega)]
        · rw [if_neg h2, if_neg (by omega)]

/-! ### The sorted block list -/

theorem sorted_blocks_facts (m : MemoryManager) (hWF : WF m) :
    (m.allocations.mergeSort (fun a b => decide (a.2.start ≤ b.2.start))).Perm
        m.allocations ∧
    ((m.allocations.mergeSort
        (fun a b => decide (a.2.start ≤ b.2.start))).map Prod.fst).Nodup ∧
    (m.allocations.mergeSort
        (fun a b => decide (a.2.start ≤ b.2.start))).Pairwise chainRel := by
  have hperm : (m.allocations.mergeSort
      (fun a b => decide (a.2.start ≤ b.2.start))).Perm m.allocations :=
    List.mergeSort_perm m.allocations _
  refine ⟨hperm, ?_, ?_⟩
  · exact (hperm.map Prod.fst).nodup_iff.mpr hWF.keys_nodup
  · have hsorted := @List.sorted_mergeSort (Nat × MemoryBlock)
      (fun a b => decide (a.2.start ≤ b.2.start))
      (by intro a b c h1 h2; simp only [decide_eq_true_eq] at h1 h2 ⊢; omega)
      (by intro a b; simp only [Bool.or_eq_true, decide_eq_true_eq]; omega)
      m.allocations
    have hdisj : (m.allocations.mergeSort
        (fun a b => decide (a.2.start ≤ b.2.start))).Pairwise
          (fun a b => RangesDisjoint a.2 b.2) := by
      refine (hperm.pairwise_iff ?_).mpr hWF.disj
      intro x y hxy
      unfold RangesDisjoint at hxy ⊢
      omega
    have hcomb := hsorted.and hdisj
    refine hcomb.imp_of_mem ?_
    intro a b ha hb hab
    obtain ⟨h1, h2⟩ := hab
    have hbpos : 1 ≤ b.2.size :=
      hWF.size_pos b (hperm.mem_iff.mp hb)
    simp only [decide_eq_true_eq] at h1
    unfold RangesDisjoint at h2
    unfold chainRel
    omega

/-! ### covered and dict helper lemmas -/

theorem getD_congr {l : List Char} {j : Nat} (d d' : Char) (h : j < l.length) :
    l.getD j d = l.getD j d' := by
  rw [List.getD_eq_getElem?_getD, List.getD_eq_getElem?_getD,
    List.getElem?_eq_getElem h]
  rfl

theorem covered_append {l₁ l₂ : List (Nat × MemoryBlock)} {j : Nat} :
    covered (l₁ ++ l₂) j ↔ covered l₁ j ∨ covered l₂ j := by
  unfold covered
  constructor
  · rintro ⟨q, hq, h1, h2⟩
    rcases List.mem_append.mp hq with h | h
    · exact Or.inl ⟨q, h, h1, h2⟩
    · exact Or.inr ⟨q, h, h1, h2⟩
  · rintro (⟨q, hq, h1, h2⟩ | ⟨q, hq, h1, h2⟩)
    · exact ⟨q, List.mem_append.mpr (Or.inl hq), h1, h2⟩
    · exact ⟨q, List.mem_append.mpr (Or.inr hq), h1, h2⟩

theorem covered_singleton {k : Nat} {b : MemoryBlock} {j : Nat} :
    covered [(k, b)] j ↔ b.start ≤ j ∧ j < b.start + b.size := by
  unfold covered
  simp

theorem covered_map_ranges {l : List (Nat × MemoryBlock)}
    {f : Nat × MemoryBlock → Nat × MemoryBlock}
    (hf : ∀ p ∈ l, (f p).2.start = p.2.start ∧ (f p).2.size = p.2.size) {j : Nat} :
    covered (l.map f) j ↔ covered l j := by
  unfold covered
  constructor
  · rintro ⟨q, hq, h1, h2⟩
    obtain ⟨p, hp, he⟩ := List.mem_map.mp hq
    obtain ⟨e1, e2⟩ := hf p hp
    rw [he] at e1 e2
    exact ⟨p, hp, by omega, by omega⟩
  · rintro ⟨p, hp, h1, h2⟩
    obtain ⟨e1, e2⟩ := hf p hp
    exact ⟨f p, List.mem_map_of_mem f hp, by omega, by omega⟩

theorem mem_unique_of_keys_nodup {l : List (Nat × MemoryBlock)} {k : Nat}
    {b b' : MemoryBlock} (hnd : (l.map Prod.fst).Nodup)
    (h1 : (k, b) ∈ l) (h2 : (k, b') ∈ l) : b = b' := by
  induction l with
  | nil => simp at h1
  | cons p rest ih =>
    rw [List.map_cons] at hnd
    have hnd' := List.nodup_cons.mp hnd
    rcases List.mem_cons.mp h1 with e1 | m1 <;> rcases List.mem_cons.mp h2 with e2 | m2
    · have he : (k, b) = (k, b') := e1.trans e2.symm
      exact congrArg Prod.snd he
    · exfalso
      apply hnd'.1
      have hk : k ∈ rest.map Prod.fst := by
        simpa using List.mem_map_of_mem Prod.fst m2
      rw [← e1]
      exact hk
    · exfalso
      apply hnd'.1
      have hk : k ∈ rest.map Prod.fst := by
        simpa using List.mem_map_of_mem Prod.fst m1
      rw [← e2]
      exact hk
    · exact ih hnd'.2 m1 m2

theorem sizeSum_chain_le :
    ∀ (l : List (Nat × MemoryBlock)) (curr N : Nat),
      l.Pairwise chainRel → (∀ p ∈ l, p.2.start + p.2.size ≤ N) →
      (∀ p ∈ l, curr ≤ p.2.start) → curr ≤ N → curr + sizeSum l ≤ N := by
  intro l
  induction l with
  | nil => intro curr N _ _ _ h; rw [sizeSum_nil]; omega
  | cons p rest ih =>
    intro curr N hchain hbound hcurr hN
    rw [sizeSum_cons]
    have h1 := hbound p (List.mem_cons_self _ _)
    have h2 := hcurr p (List.mem_cons_self _ _)
    have h3 := ih (curr + p.2.size) N (List.pairwise_cons.mp hchain).2
      (fun q hq => hbound q (List.mem_cons_of_mem _ hq))
      (fun q hq => by
        have := (List.pairwise_cons.mp hchain).1 q hq
        unfold chainRel at this
        omega)
      (by omega)
    omega

/-! ### Operation equations -/

theorem alloc_invalid {m : MemoryManager} {s : Int}
    (h : s ≤ 0 ∨ s > (m.memory.length : Int)) :
    m.alloc s = (.error .invalidArgument, m) := by
  unfold MemoryManager.alloc
  rw [if_pos h]

theorem alloc_fit {m : MemoryManager} {s : Int}
    (hv : ¬ (s ≤ 0 ∨ s > (m.memory.length : Int))) {i : Nat}
    (hf : findFit m.memory s.toNat = some i) :
    m.alloc s = (.ok m.next_id,
      { m with memory := markRange m.memory i s.toNat 'X',
               next_id := m.next_id + 1,
               allocations := (dictSet m.allocations m.next_id
                 (MemoryBlock.mkFresh i s.toNat)) }) := by
  unfold MemoryManager.alloc
  rw [if_neg hv]
  rw [hf]

theorem alloc_oom {m : MemoryManager} {s : Int}
    (hv : ¬ (s ≤ 0 ∨ s > (m.memory.length : Int)))
    (hf : findFit m.memory s.toNat = none) :
    m.alloc s = (.error .outOfMemory, m) := by
  unfold MemoryManager.alloc
  rw [if_neg hv]
  rw [hf]

theorem free_unknown {m : MemoryManager} {k : Nat}
    (h : keyMem m.allocations k = false) :
    m.free k = (.error .unknownHandle, m) := by
  unfold MemoryManager.free
  rw [if_pos (by rw [h]; simp)]

theorem free_found {m : MemoryManager} {k : Nat} {block : MemoryBlock}
    (h : lookup m.allocations k = some block) :
    m.free k = (.ok true,
      { m with allocations := dictPop m.allocations k,
               memory := markRange m.memory block.start block.size '-' }) := by
  unfold MemoryManager.free
  rw [if_neg (by rw [keyMem_of_lookup h]; simp)]
  rw [h]

theorem write_unknown {m : MemoryManager} {k : Nat} {o : Int} {d : String}
    (h : lookup m.allocations k = none) :
    m.write k o d = (.error .unknownHandle, m) := by
  unfold MemoryManager.write
  rw [h]

theorem write_oob {m : MemoryManager} {k : Nat} {block : MemoryBlock}
    (h : lookup m.allocations k = some block) {o : Int} {d : String}
    (h1 : o < 0 ∨ o ≥ (block.size : Int)) :
    m.write k o d = (.error .outOfBounds, m) := by
  unfold MemoryManager.write
  rw [h]
  dsimp only
  rw [if_pos h1]

theorem write_cap {m : MemoryManager} {k : Nat} {block : MemoryBlock}
    (h : lookup m.allocations k = some block) {o : Int} {d : String}
    (h1 : ¬ (o < 0 ∨ o ≥ (block.size : Int)))
    (h2 : (d.length : Int) > (block.size : Int) - o) :
    m.write k o d = (.error .capacityExceeded, m) := by
  unfold MemoryManager.write
  rw [h]
  dsimp only
  rw [if_neg h1, if_pos h2]

theorem write_ok {m : MemoryManager} {k : Nat} {block : MemoryBlock}
    (h : lookup m.allocations k = some block) {o : Int} {d : String}
    (h1 : ¬ (o < 0 ∨ o ≥ (block.size : Int)))
    (h2 : ¬ ((d.length : Int) > (block.size : Int) - o)) :
    m.write k o d = (.ok (),
      { m with allocations := (dictSet m.allocations k
          ({ block with data := writeChars block.data o.toNat d.data })) }) := by
  unfold MemoryManager.write
  rw [h]
  dsimp only
  rw [if_neg h1, if_neg h2]

theorem read_snd (m : MemoryManager) (k : Nat) (o len : Int) :
    (m.read k o len).2 = m := by
  unfold MemoryManager.read
  repeat' split
  all_goals rfl

theorem defragment_eq (m : MemoryManager) :
    m.defragment =
      { m with
        memory := ((m.allocations.mergeSort
          (fun a b => decide (a.2.start ≤ b.2.start))).foldl
          defragStep (List.replicate m.memory.length '-', [], 0)).1,
        allocations := ((m.allocations.mergeSort
          (fun a b => decide (a.2.start ≤ b.2.start))).foldl
          defragStep (List.replicate m.memory.length '-', [], 0)).2.1 } := rfl

/-! ### Preservation of well-formedness -/

theorem WF_mkInit {s : Int} {m : MemoryManager}
    (h : MemoryManager.mkInit s = .ok m) : WF m := by
  unfold MemoryManager.mkInit at h
  by_cases hs : s ≤ 0
  · rw [if_pos hs] at h
    exact absurd h (by simp)
  · rw [if_neg hs] at h
    injection h with h
    subst h
    refine ⟨by simp, by simp, by simp, by simp, by simp, by simp, by simp,
      List.Pairwise.nil, ?_, Nat.le_refl 1⟩
    intro j hj
    rw [if_neg (by unfold covered; simp)]
    rw [List.getD_eq_getElem?_getD,
      List.getElem?_replicate_of_lt (by simpa using hj)]
    rfl

theorem WF_alloc (m : MemoryManager) (hWF : WF m) (s : Int) : WF (m.alloc s).2 := by
  by_cases hv : s ≤ 0 ∨ s > (m.memory.length : Int)
  · rw [alloc_invalid hv]
    exact hWF
  · cases hf : findFit m.memory s.toNat with
    | none =>
      rw [alloc_oom hv hf]
      exact hWF
    | some i =>
      rw [alloc_fit hv hf]
      have hs1 : 1 ≤ s.toNat := by omega
      have hs2 : s.toNat ≤ m.memory.length := by omega
      obtain ⟨hfit, hfree, _⟩ := (findFit_eq_some hs2).mp hf
      have hfresh : keyMem m.allocations m.next_id = false := by
        by_contra hc
        rw [Bool.not_eq_false] at hc
        obtain ⟨b, hb⟩ := keyMem_iff.mp hc
        exact absurd (hWF.handle_lt _ hb) (lt_irrefl _)
      rw [dictSet_of_keyMem_false hfresh]
      have huncov : ∀ j, i ≤ j → j < i + s.toNat → ¬ covered m.allocations j := by
        intro j h1 h2 hcov
        have hjlen : j < m.memory.length := by omega
        have he := isFreeRange_iff.mp hfree j h1 h2
        rw [getD_congr 'X' ' ' hjlen, hWF.sync j hjlen, if_pos hcov] at he
        exact absurd he (by decide)
      refine ⟨?_, ?_, ?_, ?_, ?_, ?_, ?_, ?_, ?_, ?_⟩
      · simpa using hWF.mem_len
      · intro p hp
        rcases List.mem_append.mp hp with h | h
        · exact hWF.size_pos p h
        · rw [List.mem_singleton.mp h]
          unfold MemoryBlock.mkFresh
          exact hs1
      · intro p hp
        rcases List.mem_append.mp hp with h | h
        · exact hWF.in_range p h
        · rw [List.mem_singleton.mp h]
          unfold MemoryBlock.mkFresh
          dsimp only
          rw [← hWF.mem_len]
          omega
      · intro p hp
        rcases List.mem_append.mp hp with h | h
        · exact hWF.data_len p h
        · rw [List.mem_singleton.mp h]
          unfold MemoryBlock.mkFresh
          simp
      · intro p hp
        rcases List.mem_append.mp hp with h | h
        · exact hWF.handle_pos p h
        · rw [List.mem_singleton.mp h]
          exact hWF.next_pos
      · intro p hp
        rcases List.mem_append.mp hp with h | h
        · have := hWF.handle_lt p h
          dsimp only
          omega
        · rw [List.mem_singleton.mp h]
          dsimp only
          omega
      · rw [List.map_append]
        rw [List.nodup_append]
        refine ⟨hWF.keys_nodup, by simp, ?_⟩
        intro a ha hb
        simp only [List.map_cons, List.map_nil, List.mem_singleton] at hb
        subst hb
        obtain ⟨q, hq, he⟩ := List.mem_map.mp ha
        have := hWF.handle_lt q hq
        omega
      · rw [List.pairwise_append]
        refine ⟨hWF.disj, List.pairwise_singleton _ _, ?_⟩
        intro p hp q hq
        rw [List.mem_singleton.mp hq]
        unfold RangesDisjoint MemoryBlock.mkFresh
        dsimp only
        by_contra hc
        push_neg at hc
        have hpsize := hWF.size_pos p hp
        set j := max i p.2.start with hj
        have hcov : covered m.allocations j := ⟨p, hp, by omega, by omega⟩
        exact huncov j (by omega) (by omega) hcov
      · intro j hj
        rw [markRange_length] at hj
        rw [markRange_getD m.memory i s.toNat 'X' j ' ' hj]
        have hcov' : covered (m.allocations ++
            [(m.next_id, MemoryBlock.mkFresh i s.toNat)]) j ↔
            covered m.allocations j ∨ (i ≤ j ∧ j < i + s.toNat) := by
          rw [covered_append, covered_singleton]
          unfold MemoryBlock.mkFresh
          rfl
        by_cases hin : i ≤ j ∧ j < i + s.toNat
        · rw [if_pos hin, if_pos (hcov'.mpr (Or.inr hin))]
        · rw [if_neg hin]
          rw [hWF.sync j hj]
          by_cases hc : covered m.allocations j
          · rw [if_pos hc, if_pos (hcov'.mpr (Or.inl hc))]
          · rw [if_neg hc, if_neg (by
              intro hcc
              rcases hcov'.mp hcc with h | h
              · exact hc h
              · exact hin h)]
      · exact Nat.le_of_lt (Nat.lt_succ_of_le hWF.next_pos)

theorem RangesDisjoint.symmRel : Symmetric (fun a b : Nat × MemoryBlock =>
    RangesDisjoint a.2 b.2) := by
  intro x y h
  unfold RangesDisjoint at h ⊢
  omega

theorem WF_free (m : MemoryManager) (hWF : WF m) (k : Nat) : WF (m.free k).2 := by
  by_cases hk : keyMem m.allocations k
  · obtain ⟨block, hb⟩ := lookup_isSome_of_keyMem hk
    rw [free_found hb]
    have hmem : (k, block) ∈ m.allocations := lookup_mem hb
    refine ⟨?_, ?_, ?_, ?_, ?_, ?_, ?_, ?_, ?_, hWF.next_pos⟩
    · simpa using hWF.mem_len
    · intro p hp; exact hWF.size_pos p (mem_dictPop.mp hp).1
    · intro p hp; exact hWF.in_range p (mem_dictPop.mp hp).1
    · intro p hp; exact hWF.data_len p (mem_dictPop.mp hp).1
    · intro p hp; exact hWF.handle_pos p (mem_dictPop.mp hp).1
    · intro p hp; exact hWF.handle_lt p (mem_dictPop.mp hp).1
    · exact hWF.keys_nodup.sublist (dictPop_sublist.map Prod.fst)
    · exact hWF.disj.sublist dictPop_sublist
    · intro j hj
      rw [markRange_length] at hj
      rw [markRange_getD m.memory block.start block.size '-' j ' ' hj]
      by_cases hin : block.start ≤ j ∧ j < block.start + block.size
      · rw [if_pos hin, if_neg ?_]
        rintro ⟨q, hq, hq1, hq2⟩
        obtain ⟨hql, hqk⟩ := mem_dictPop.mp hq
        have hne : q ≠ (k, block) := by
          intro he
          rw [he] at hqk
          exact hqk rfl
        have hd := (hWF.disj.forall RangesDisjoint.symmRel) hql hmem hne
        unfold RangesDisjoint at hd
        dsimp only at hd
        omega
      · rw [if_neg hin, hWF.sync j hj]
        by_cases hc : covered m.allocations j
        · have hc' : covered (dictPop m.allocations k) j := by
            obtain ⟨q, hq, h1, h2⟩ := hc
            by_cases hqk : q.1 = k
            · exfalso
              have hq' : (k, q.2) ∈ m.allocations := by rw [← hqk]; exact hq
              have he := mem_unique_of_keys_nodup hWF.keys_nodup hq' hmem
              rw [he] at h1 h2
              exact hin ⟨h1, h2⟩
            · exact ⟨q, mem_dictPop.mpr ⟨hq, hqk⟩, h1, h2⟩
          rw [if_pos hc, if_pos hc']
        · rw [if_neg hc, if_neg ?_]
          rintro ⟨q, hq, h1, h2⟩
          exact hc ⟨q, (mem_dictPop.mp hq).1, h1, h2⟩
  · have hk' : keyMem m.allocations k = false := by simpa using hk
    rw [free_unknown hk']
    exact hWF

theorem WF_write (m : MemoryManager) (hWF : WF m) (k : Nat) (o : Int) (d : String) :
    WF (m.write k o d).2 := by
  cases hl : lookup m.allocations k with
  | none =>
    rw [write_unknown hl]
    exact hWF
  | some block =>
    by_cases h1 : o < 0 ∨ o ≥ (block.size : Int)
    · rw [write_oob hl h1]; exact hWF
    · by_cases h2 : (d.length : Int) > (block.size : Int) - o
      · rw [write_cap hl h1 h2]; exact hWF
      · rw [write_ok hl h1 h2]
        have hkm := keyMem_of_lookup hl
        have hmem := lookup_mem hl
        unfold dictSet
        rw [if_pos hkm]
        set b' : MemoryBlock :=
          { block with data := writeChars block.data o.toNat d.data } with hb'
        set f : Nat × MemoryBlock → Nat × MemoryBlock :=
          fun p => if p.1 == k then (k, b') else p with hfdef
        have hpoint : ∀ p ∈ m.allocations, (f p).1 = p.1 ∧
            (f p).2.start = p.2.start ∧ (f p).2.size = p.2.size ∧
            (f p).2.data.length = p.2.data.length := by
          intro p hp
          by_cases hpk : p.1 = k
          · have hp' : (k, p.2) ∈ m.allocations := by rw [← hpk]; exact hp
            have hpb : p.2 = block := mem_unique_of_keys_nodup hWF.keys_nodup hp' hmem
            rw [hfdef]
            dsimp only
            rw [if_pos (by simpa using hpk)]
            rw [hb', hpb]
            refine ⟨hpk.symm, rfl, rfl, ?_⟩
            exact writeChars_length block.data o.toNat d.data
          · rw [hfdef]
            dsimp only
            rw [if_neg (by simpa using hpk)]
            exact ⟨rfl, rfl, rfl, rfl⟩
        refine ⟨hWF.mem_len, ?_, ?_, ?_, ?_, ?_, ?_, ?_, ?_, hWF.next_pos⟩
        · intro q hq
          obtain ⟨p, hp, he⟩ := List.mem_map.mp hq
          obtain ⟨_, _, e3, _⟩ := hpoint p hp
          rw [← he, e3]
          exact hWF.size_pos p hp
        · intro q hq
          obtain ⟨p, hp, he⟩ := List.mem_map.mp hq
          obtain ⟨_, e2, e3, _⟩ := hpoint p hp
          rw [← he, e2, e3]
          exact hWF.in_range p hp
        · intro q hq
          obtain ⟨p, hp, he⟩ := List.mem_map.mp hq
          obtain ⟨_, _, e3, e4⟩ := hpoint p hp
          rw [← he, e3, e4]
          exact hWF.data_len p hp
        · intro q hq
          obtain ⟨p, hp, he⟩ := List.mem_map.mp hq
          obtain ⟨e1, _, _, _⟩ := hpoint p hp
          rw [← he, e1]
          exact hWF.handle_pos p hp
        · intro q hq
          obtain ⟨p, hp, he⟩ := List.mem_map.mp hq
          obtain ⟨e1, _, _, _⟩ := hpoint p hp
          rw [← he, e1]
          exact hWF.handle_lt p hp
        · rw [List.map_map]
          have he : List.map (Prod.fst ∘ f) m.allocations =
              List.map Prod.fst m.allocations := by
            apply List.map_congr_left
            intro p hp
            exact (hpoint p hp).1
          rw [he]
          exact hWF.keys_nodup
        · rw [List.pairwise_map]
          refine hWF.disj.imp_of_mem ?_
          intro a b ha hb hab
          obtain ⟨_, a2, a3, _⟩ := hpoint a ha
          obtain ⟨_, b2, b3, _⟩ := hpoint b hb
          unfold RangesDisjoint at hab ⊢
          omega
        · intro j hj
          rw [hWF.sync j hj]
          have hcov := @covered_map_ranges m.allocations f
            (fun p hp => ⟨(hpoint p hp).2.1, (hpoint p hp).2.2.1⟩) j
          by_cases hc : covered m.allocations j
          · rw [if_pos hc, if_pos (hcov.mpr hc)]
          · rw [if_neg hc, if_neg (fun hcc => hc (hcov.mp hcc))]

theorem WF_defragment (m : MemoryManager) (hWF : WF m) : WF m.defragment := by
  rw [defragment_eq]
  set sorted :=
    m.allocations.mergeSort (fun a b => decide (a.2.start ≤ b.2.start)) with hsorted
  obtain ⟨hperm, hnodup, hchain⟩ := sorted_blocks_facts m hWF
  have hbound : ∀ p ∈ sorted,
      p.2.start + p.2.size ≤ (List.replicate m.memory.length '-').length := by
    intro p hp
    rw [List.length_replicate, hWF.mem_len]
    exact hWF.in_range p (hperm.subset hp)
  have hposall : ∀ p ∈ sorted, 1 ≤ p.2.size :=
    fun p hp => hWF.size_pos p (hperm.subset hp)
  obtain ⟨e1, e2, e3, e4⟩ := defrag_foldl sorted (List.replicate m.memory.length '-')
    [] 0 (fun p _ => rfl) hnodup hchain hbound (fun p _ => Nat.zero_le _)
    (Nat.zero_le _)
  rw [List.nil_append] at e1
  have htot : sizeSum sorted ≤ m.memory.length := by
    have h := sizeSum_chain_le sorted 0 (List.replicate m.memory.length '-').length
      hchain hbound (fun p _ => Nat.zero_le _) (Nat.zero_le _)
    rw [List.length_replicate] at h
    omega
  have hqfacts : ∀ q ∈ ((sorted.foldl defragStep
      (List.replicate m.memory.length '-', [], 0)).2.1),
      ∃ p ∈ m.allocations, q.1 = p.1 ∧ q.2.size = p.2.size ∧
        q.2.data = p.2.data ∧ q.2.start + q.2.size ≤ sizeSum sorted := by
    intro q hq
    rw [e1] at hq
    obtain ⟨p, hp, f1, f2, f3, _, f5⟩ := packAllocs_mem sorted 0 q hq
    exact ⟨p, hperm.subset hp, f1, f2, f3, by omega⟩
  refine ⟨?_, ?_, ?_, ?_, ?_, ?_, ?_, ?_, ?_, hWF.next_pos⟩
  · rw [show ({ m with
        memory := ((sorted.foldl defragStep
          (List.replicate m.memory.length '-', [], 0))).1,
        allocations := ((sorted.foldl defragStep
          (List.replicate m.memory.length '-', [], 0))).2.1 } :
        MemoryManager).memory = (sorted.foldl defragStep
          (List.replicate m.memory.length '-', [], 0)).1 from rfl]
    rw [e3, List.length_replicate]
    exact hWF.mem_len
  · intro q hq
    obtain ⟨p, hp, _, f2, _, _⟩ := hqfacts q hq
    rw [f2]
    exact hWF.size_pos p hp
  · intro q hq
    obtain ⟨p, hp, _, _, _, f5⟩ := hqfacts q hq
    have hss : sizeSum sorted ≤ m.size := by rw [← hWF.mem_len]; exact htot
    show q.2.start + q.2.size ≤ m.size
    omega
  · intro q hq
    obtain ⟨p, hp, _, f2, f3, _⟩ := hqfacts q hq
    rw [f3, f2]
    exact hWF.data_len p hp
  · intro q hq
    obtain ⟨p, hp, f1, _, _, _⟩ := hqfacts q hq
    rw [f1]
    exact hWF.handle_pos p hp
  · intro q hq
    obtain ⟨p, hp, f1, _, _, _⟩ := hqfacts q hq
    rw [f1]
    exact hWF.handle_lt p hp
  · rw [show ({ m with
        memory := ((sorted.foldl defragStep
          (List.replicate m.memory.length '-', [], 0))).1,
        allocations := ((sorted.foldl defragStep
          (List.replicate m.memory.length '-', [], 0))).2.1 } :
        MemoryManager).allocations = (sorted.foldl defragStep
          (List.replicate m.memory.length '-', [], 0)).2.1 from rfl]
    rw [e1, packAllocs_keys]
    exact hnodup
  · rw [show ({ m with
        memory := ((sorted.foldl defragStep
          (List.replicate m.memory.length '-', [], 0))).1,
        allocations := ((sorted.foldl defragStep
          (List.replicate m.memory.length '-', [], 0))).2.1 } :
        MemoryManager).allocations = (sorted.foldl defragStep
          (List.replicate m.memory.length '-', [], 0)).2.1 from rfl]
    rw [e1]
    refine (packAllocs_chain sorted 0).imp ?_
    intro a b hab
    unfold chainRel at hab
    unfold RangesDisjoint
    omega
  · intro j hj
    rw [e3, List.length_replicate] at hj
    have h4 := e4 j ' ' (by rw [List.length_replicate]; exact hj)
    rw [h4]
    have hcov : covered ((sorted.foldl defragStep
        (List.replicate m.memory.length '-', [], 0)).2.1) j ↔
        0 ≤ j ∧ j < 0 + sizeSum sorted := by
      rw [e1]
      exact packAllocs_covered sorted 0 j
    by_cases hin : 0 ≤ j ∧ j < 0 + sizeSum sorted
    · rw [if_pos hin, if_pos (hcov.mpr hin)]
    · rw [if_neg hin, if_neg (fun hc => hin (hcov.mp hc))]
      rw [List.getD_eq_getElem?_getD, List.getElem?_replicate_of_lt hj]
      rfl

theorem WF_read (m : MemoryManager) (hWF : WF m) (k : Nat) (o len : Int) :
    WF (m.read k o len).2 := by
  rw [read_snd]
  exact hWF

theorem WF_applyOp (m : MemoryManager) (hWF : WF m) (op : Op) :
    WF (applyOp m op) := by
  cases op with
  | allocOp s => exact WF_alloc m hWF s
  | freeOp i => exact WF_free m hWF i
  | defragOp => exact WF_defragment m hWF
  | writeOp i o d => exact WF_write m hWF i o d
  | readOp i o l => exact WF_read m hWF i o l

theorem reachable_WF {m : MemoryManager} (h : Reachable m) : WF m := by
  induction h with
  | mk0 s m hm => exact WF_mkInit hm
  | step m op hr ih => exact WF_applyOp m ih op

/-! ### Further dict and operation lemmas -/

theorem keyMem_eq_true_iff_mem_keys {l : List (Nat × MemoryBlock)} {k : Nat} :
    keyMem l k = true ↔ k ∈ l.map Prod.fst := by
  rw [keyMem_iff]
  constructor
  · rintro ⟨b, hb⟩
    simpa using List.mem_map_of_mem Prod.fst hb
  · intro h
    obtain ⟨p, hp, he⟩ := List.mem_map.mp h
    refine ⟨p.2, ?_⟩
    rw [show (k, p.2) = p by rw [← he]]
    exact hp

theorem keyMem_dictSet_ne_false {l : List (Nat × MemoryBlock)} {k h : Nat}
    {v : MemoryBlock} (hl : keyMem l h = false) (hne : h ≠ k) :
    keyMem (dictSet l k v) h = false := by
  unfold dictSet
  by_cases hk : keyMem l k
  · rw [if_pos hk]
    rw [Bool.eq_false_iff]
    intro hc
    obtain ⟨b, hb⟩ := keyMem_iff.mp hc
    obtain ⟨p, hp, he⟩ := List.mem_map.mp hb
    by_cases hpk : p.1 = k
    · rw [if_pos (by simpa using hpk)] at he
      exact hne (congrArg Prod.fst he).symm
    · rw [if_neg (by simpa using hpk)] at he
      rw [Bool.eq_false_iff] at hl
      exact hl (keyMem_iff.mpr ⟨b, he ▸ hp⟩)
  · rw [if_neg hk, keyMem_append, hl]
    simp only [Bool.false_or, keyMem, List.any_cons, List.any_nil, Bool.or_false]
    simpa using fun he => hne he.symm

theorem keyMem_dictPop_of_false {l : List (Nat × MemoryBlock)} {k h : Nat}
    (hl : keyMem l h = false) : keyMem (dictPop l k) h = false := by
  rw [Bool.eq_false_iff]
  intro hc
  obtain ⟨b, hb⟩ := keyMem_iff.mp hc
  rw [Bool.eq_false_iff] at hl
  exact hl (keyMem_iff.mpr ⟨b, (mem_dictPop.mp hb).1⟩)

theorem keyMem_dictPop_self {l : List (Nat × MemoryBlock)} {k : Nat} :
    keyMem (dictPop l k) k = false := by
  rw [Bool.eq_false_iff]
  intro hc
  obtain ⟨b, hb⟩ := keyMem_iff.mp hc
  exact (mem_dictPop.mp hb).2 rfl

theorem alloc_ok_elim {m : MemoryManager} {s : Int} {r : Nat}
    (h : (m.alloc s).1 = .ok r) :
    r = m.next_id ∧ (m.alloc s).2.next_id = m.next_id + 1 ∧
    ∃ i, findFit m.memory s.toNat = some i ∧
      (m.alloc s).2.allocations =
        dictSet m.allocations m.next_id (MemoryBlock.mkFresh i s.toNat) := by
  by_cases hv : s ≤ 0 ∨ s > (m.memory.length : Int)
  · rw [alloc_invalid hv] at h
    exact absurd h (by simp)
  · cases hf : findFit m.memory s.toNat with
    | none =>
      rw [alloc_oom hv hf] at h
      exact absurd h (by simp)
    | some i =>
      rw [alloc_fit hv hf] at h ⊢
      refine ⟨by injection h with h; exact h.symm, rfl, i, rfl, rfl⟩

theorem alloc_error_elim {m : MemoryManager} {s : Int} {e : MemErr}
    (h : (m.alloc s).1 = .error e) : (m.alloc s).2 = m := by
  by_cases hv : s ≤ 0 ∨ s > (m.memory.length : Int)
  · rw [alloc_invalid hv]
  · cases hf : findFit m.memory s.toNat with
    | none => rw [alloc_oom hv hf]
    | some i =>
      rw [alloc_fit hv hf] at h
      exact absurd h (by simp)

theorem free_ok_true_elim {m : MemoryManager} {k : Nat}
    (h : (m.free k).1 = .ok true) :
    ∃ block, lookup m.allocations k = some block ∧
      (m.free k).2 = { m with allocations := dictPop m.allocations k,
                              memory := markRange m.memory block.start
                                block.size '-' } := by
  by_cases hk : keyMem m.allocations k
  · cases hl : lookup m.allocations k with
    | none =>
      exfalso
      unfold MemoryManager.free at h
      rw [if_neg (by rw [hk]; simp), hl] at h
      injection h with h
      exact Bool.noConfusion h
    | some block => exact ⟨block, rfl, by rw [free_found hl]⟩
  · exfalso
    rw [free_unknown (by simpa using hk)] at h
    exact absurd h (by simp)

theorem free_error_elim {m : MemoryManager} {k : Nat} {e : MemErr}
    (h : (m.free k).1 = .error e) : (m.free k).2 = m := by
  by_cases hk : keyMem m.allocations k
  · cases hl : lookup m.allocations k with
    | none =>
      unfold MemoryManager.free
      rw [if_neg (by rw [hk]; simp), hl]
    | some block =>
      rw [free_found hl] at h
      exact absurd h (by simp)
  · rw [free_unknown (by simpa using hk)]

theorem write_error_elim {m : MemoryManager} {k : Nat} {o : Int} {d : String}
    {e : MemErr} (h : (m.write k o d).1 = .error e) : (m.write k o d).2 = m := by
  cases hl : lookup m.allocations k with
  | none => rw [write_unknown hl]
  | some block =>
    by_cases h1 : o < 0 ∨ o ≥ (block.size : Int)
    · rw [write_oob hl h1]
    · by_cases h2 : (d.length : Int) > (block.size : Int) - o
      · rw [write_cap hl h1 h2]
      · rw [write_ok hl h1 h2] at h
        exact absurd h (by simp)

theorem read_ok {m : MemoryManager} {k : Nat} {block : MemoryBlock}
    (h : lookup m.allocations k = some block) {o len : Int}
    (h1 : ¬ o < 0) (h2 : ¬ len ≤ 0)
    (h3 : ¬ o ≥ (m.memory.length : Int))
    (h4 : ¬ o + len > (m.memory.length : Int))
    (h5 : ¬ (o < 0 ∨ o + len > (block.size : Int))) :
    m.read k o len =
      (.ok (String.join ((block.data.drop o.toNat).take len.toNat)), m) := by
  unfold MemoryManager.read
  rw [if_neg (by rw [keyMem_of_lookup h]; simp), if_neg h1, if_neg h2, if_neg h3,
    if_neg h4, h]
  dsimp only
  rw [if_neg h5]

theorem keyMem_dictSet_true_elim {l : List (Nat × MemoryBlock)} {k h : Nat}
    {v : MemoryBlock} (hc : keyMem (dictSet l k v) h = true) :
    keyMem l h = true ∨ h = k := by
  by_cases he : h = k
  · exact Or.inr he
  · left
    by_contra hf
    rw [Bool.not_eq_true] at hf
    rw [keyMem_dictSet_ne_false hf he] at hc
    exact Bool.noConfusion hc

theorem defrag_foldl_keys :
    ∀ (l : List (Nat × MemoryBlock)) (mem : List Char)
      (acc : List (Nat × MemoryBlock)) (curr : Nat) (h : Nat),
      keyMem (l.foldl defragStep (mem, acc, curr)).2.1 h = true →
      keyMem acc h = true ∨ h ∈ l.map Prod.fst := by
  intro l
  induction l with
  | nil =>
    intro mem acc curr h hc
    exact Or.inl hc
  | cons p rest ih =>
    intro mem acc curr h hc
    rw [List.foldl_cons] at hc
    rcases ih _ _ _ h hc with hacc | hmem
    · rcases keyMem_dictSet_true_elim hacc with h1 | h1
      · exact Or.inl h1
      · right
        rw [h1]
        simp
    · right
      rw [List.map_cons]
      exact List.mem_cons_of_mem _ hmem

/-! ### Avoided-handle preservation -/

theorem Avoided_applyOp {h : Nat} {m : MemoryManager} (ha : Avoided h m) (op : Op) :
    Avoided h (applyOp m op) := by
  obtain ⟨hlt, hkm⟩ := ha
  cases op with
  | allocOp s =>
    show Avoided h (m.alloc s).2
    cases hr : (m.alloc s).1 with
    | error e => rw [alloc_error_elim hr]; exact ⟨hlt, hkm⟩
    | ok r =>
      obtain ⟨_, hn, i, _, hal⟩ := alloc_ok_elim hr
      refine ⟨by omega, ?_⟩
      rw [hal]
      exact keyMem_dictSet_ne_false hkm (by omega)
  | freeOp k =>
    show Avoided h (m.free k).2
    cases hr : (m.free k).1 with
    | error e => rw [free_error_elim hr]; exact ⟨hlt, hkm⟩
    | ok b =>
      cases b with
      | true =>
        obtain ⟨block, _, hst⟩ := free_ok_true_elim hr
        rw [hst]
        exact ⟨hlt, keyMem_dictPop_of_false hkm⟩
      | false =>
        have : (m.free k).2 = m := by
          by_cases hk : keyMem m.allocations k
          · cases hl : lookup m.allocations k with
            | none =>
              unfold MemoryManager.free
              rw [if_neg (by rw [hk]; simp), hl]
            | some block =>
              rw [free_found hl] at hr
              exact absurd hr (by simp)
          · rw [free_unknown (by simpa using hk)]
        rw [this]
        exact ⟨hlt, hkm⟩
  | defragOp =>
    show Avoided h m.defragment
    rw [defragment_eq]
    refine ⟨hlt, ?_⟩
    rw [Bool.eq_false_iff]
    intro hc
    rcases defrag_foldl_keys _ _ _ _ h hc with h1 | h1
    · exact Bool.noConfusion h1
    · rw [Bool.eq_false_iff] at hkm
      apply hkm
      rw [keyMem_eq_true_iff_mem_keys]
      exact ((List.mergeSort_perm m.allocations _).map Prod.fst).subset h1
  | writeOp k o d =>
    show Avoided h (m.write k o d).2
    cases hr : (m.write k o d).1 with
    | error e => rw [write_error_elim hr]; exact ⟨hlt, hkm⟩
    | ok u =>
      cases hl : lookup m.allocations k with
      | none =>
        rw [write_unknown hl]
        exact ⟨hlt, hkm⟩
      | some block =>
        by_cases h1 : o < 0 ∨ o ≥ (block.size : Int)
        · rw [write_oob hl h1]; exact ⟨hlt, hkm⟩
        · by_cases h2 : (d.length : Int) > (block.size : Int) - o
          · rw [write_cap hl h1 h2]; exact ⟨hlt, hkm⟩
          · rw [write_ok hl h1 h2]
            refine ⟨hlt, ?_⟩
            have hne : h ≠ k := by
              intro he
              rw [he] at hkm
              rw [keyMem_of_lookup hl] at hkm
              exact Bool.noConfusion hkm
            exact keyMem_dictSet_ne_false hkm hne
  | readOp k o l =>
    show Avoided h (m.read k o l).2
    rw [read_snd]
    exact ⟨hlt, hkm⟩

/-! ### Bridge between the occupancy array and the block table -/

theorem isFreeRange_iff_uncovered {m : MemoryManager} (hWF : WF m) {i s : Nat}
    (hb : i + s ≤ m.memory.length) :
    isFreeRange m.memory i s = true ↔
      ∀ j < i + s, i ≤ j → ¬ covered m.allocations j := by
  rw [isFreeRange_iff]
  constructor
  · intro hf j h2 h1 hcov
    have hjlen : j < m.memory.length := by omega
    have he := hf j h1 h2
    rw [getD_congr 'X' ' ' hjlen, hWF.sync j hjlen, if_pos hcov] at he
    exact absurd he (by decide)
  · intro hnc j h1 h2
    have hjlen : j < m.memory.length := by omega
    rw [getD_congr 'X' ' ' hjlen, hWF.sync j hjlen,
      if_neg (hnc j (by omega) h1)]

/-! ### The claims -/

/-- C1: `allocate(size)` is a first-fit linear scan. For a region of
size `N`: a request with `size < 1` or `size > N` fails with
`InvalidArgument` and leaves the state unchanged, before any search; for
`1 ≤ size ≤ N`, if `i` is an offset whose range `[i, i+size)` is
entirely free according to the occupancy derived from the live block
table and every lower offset fails to be such a candidate, the
allocation succeeds, returns the next handle and installs the fresh
block at offset `i`; and if every in-range offset overlaps a live
block, it fails with `OutOfMemory` and leaves the state unchanged. -/
theorem C1_first_fit (m : MemoryManager) (hWF : WF m) (s : Int) :
    ((s < 1 ∨ s > (m.memory.length : Int)) →
      m.alloc s = (.error .invalidArgument, m)) ∧
    (∀ i : Nat, 1 ≤ s → s ≤ (m.memory.length : Int) →
      (i + s.toNat ≤ m.memory.length ∧
        (∀ j < i + s.toNat, i ≤ j → ¬ covered m.allocations j) ∧
        (∀ i' < i, ∃ j < i' + s.toNat, i' ≤ j ∧ covered m.allocations j)) →
      (m.alloc s).1 = .ok m.next_id ∧
      lookup (m.alloc s).2.allocations m.next_id =
        some { start := i, size := s.toNat, data := List.replicate s.toNat "" }) ∧
    (1 ≤ s → s ≤ (m.memory.length : Int) →
      (∀ i < m.memory.length, i + s.toNat ≤ m.memory.length →
        ∃ j < i + s.toNat, i ≤ j ∧ covered m.allocations j) →
      m.alloc s = (.error .outOfMemory, m)) := by
  refine ⟨?_, ?_, ?_⟩
  · intro hs
    exact alloc_invalid (by omega)
  · rintro i hs1 hs2 ⟨hfit, hfree, hmin⟩
    have hv : ¬ (s ≤ 0 ∨ s > (m.memory.length : Int)) := by omega
    have hf : findFit m.memory s.toNat = some i := by
      rw [findFit_eq_some (by omega)]
      refine ⟨hfit, ?_, ?_⟩
      · rw [isFreeRange_iff_uncovered hWF hfit]
        intro j h2 h1
        exact hfree j h2 h1
      · intro i' hi'
        obtain ⟨j, hj1, hj2, hj3⟩ := hmin i' hi'
        rw [Bool.eq_false_iff]
        intro hc
        have hfit' : i' + s.toNat ≤ m.memory.length := by omega
        exact (isFreeRange_iff_uncovered hWF hfit').mp hc j hj1 hj2 hj3
    rw [alloc_fit hv hf]
    have hfresh : keyMem m.allocations m.next_id = false := by
      by_contra hc
      rw [Bool.not_eq_false] at hc
      obtain ⟨b, hb⟩ := keyMem_iff.mp hc
      exact absurd (hWF.handle_lt _ hb) (lt_irrefl _)
    refine ⟨rfl, ?_⟩
    show lookup (dictSet m.allocations m.next_id
      (MemoryBlock.mkFresh i s.toNat)) m.next_id = _
    rw [lookup_dictSet_self]
    rfl
  · intro hs1 hs2 hall
    have hv : ¬ (s ≤ 0 ∨ s > (m.memory.length : Int)) := by omega
    have hf : findFit m.memory s.toNat = none := by
      rw [findFit_eq_none (by omega)]
      intro i hfit
      obtain ⟨j, hj1, hj2, hj3⟩ := hall i (by omega) hfit
      rw [Bool.eq_false_iff]
      intro hc
      exact (isFreeRange_iff_uncovered hWF hfit).mp hc j hj1 hj2 hj3
    exact alloc_oom hv hf

/-- Witness for C1: in a size-3 region whose only live block occupies
offset 0, allocating one unit succeeds at offset 1 (the lowest free
offset) under handle 2. -/
theorem C1_first_fit_witness :
    (mgrC.alloc 1).1 = .ok 2 ∧
    lookup (mgrC.alloc 1).2.allocations 2 =
      some { start := 1, size := 1, data := [""] } :=
  (C1_first_fit mgrC
      ⟨by decide, by decide, by decide, by decide, by decide, by decide,
        by decide, by decide, by decide, by decide⟩ 1).2.1 1
    (by decide) (by decide) ⟨by decide, by decide, by decide⟩

/-- C2: `defragment()` relocates the live blocks, taken in ascending
order of current start offset, to consecutive positions from offset 0:
every live handle stays live with its size and payload unchanged and its
new start equal to the sum of the sizes of the live blocks that start
before it; no handle appears or disappears; and afterwards the occupancy
is exactly `'X'` on `[0, total)` and `'-'` on `[total, N)` where `total`
is the sum of all live block sizes — a single trailing free run. -/
theorem C2_defragment (m : MemoryManager) (hWF : WF m) :
    (∀ (k : Nat) (b : MemoryBlock), lookup m.allocations k = some b →
      lookup m.defragment.allocations k =
        some { start := sizeSum (m.allocations.filter
                 (fun q => decide (q.2.start < b.start))),
               size := b.size, data := b.data }) ∧
    (∀ k : Nat, keyMem m.defragment.allocations k = keyMem m.allocations k) ∧
    m.defragment.memory.length = m.memory.length ∧
    (∀ j < m.memory.length,
      m.defragment.memory.getD j ' ' =
        if j < sizeSum m.allocations then 'X' else '-') ∧
    (∀ j < m.memory.length,
      covered m.defragment.allocations j ↔ j < sizeSum m.allocations) ∧
    m.defragment.size = m.size ∧ m.defragment.next_id = m.next_id := by
  obtain ⟨hperm, hnodup, hchain⟩ := sorted_blocks_facts m hWF
  have hbound : ∀ p ∈ m.allocations.mergeSort
      (fun a b => decide (a.2.start ≤ b.2.start)),
      p.2.start + p.2.size ≤ (List.replicate m.memory.length '-').length := by
    intro p hp
    rw [List.length_replicate, hWF.mem_len]
    exact hWF.in_range p (hperm.subset hp)
  have hposall : ∀ p ∈ m.allocations.mergeSort
      (fun a b => decide (a.2.start ≤ b.2.start)), 1 ≤ p.2.size :=
    fun p hp => hWF.size_pos p (hperm.subset hp)
  obtain ⟨e1, e2, e3, e4⟩ := defrag_foldl
    (m.allocations.mergeSort (fun a b => decide (a.2.start ≤ b.2.start)))
    (List.replicate m.memory.length '-') [] 0 (fun p _ => rfl) hnodup hchain
    hbound (fun p _ => Nat.zero_le _) (Nat.zero_le _)
  rw [List.nil_append] at e1
  have hsum : sizeSum (m.allocations.mergeSort
      (fun a b => decide (a.2.start ≤ b.2.start))) = sizeSum m.allocations :=
    sizeSum_perm hperm
  have hA : m.defragment.allocations = packAllocs
      (m.allocations.mergeSort (fun a b => decide (a.2.start ≤ b.2.start))) 0 :=
    e1
  have hmemlen : m.defragment.memory.length = m.memory.length := by
    have : m.defragment.memory.length =
        (List.replicate m.memory.length '-').length := e3
    rw [this, List.length_replicate]
  refine ⟨?_, ?_, hmemlen, ?_, ?_, rfl, rfl⟩
  · intro k b hb
    have hmem : (k, b) ∈ m.allocations := lookup_mem hb
    have hmem' : (k, b) ∈ m.allocations.mergeSort
        (fun a b => decide (a.2.start ≤ b.2.start)) := hperm.mem_iff.mpr hmem
    have hl := packAllocs_lookup _ 0 hnodup hchain hposall k b hmem'
    have hst : (0 : Nat) + sizeSum ((m.allocations.mergeSort
        (fun a b => decide (a.2.start ≤ b.2.start))).filter
          (fun q => decide (q.2.start < b.start))) =
        sizeSum (m.allocations.filter (fun q => decide (q.2.start < b.start))) := by
      rw [Nat.zero_add]
      exact sizeSum_perm (hperm.filter _)
    rw [hA, hl, hst]
  · intro k
    have h1 : keyMem (packAllocs (m.allocations.mergeSort
        (fun a b => decide (a.2.start ≤ b.2.start))) 0) k = true ↔
        keyMem m.allocations k = true := by
      rw [keyMem_eq_true_iff_mem_keys, keyMem_eq_true_iff_mem_keys, packAllocs_keys]
      exact (hperm.map Prod.fst).mem_iff
    rw [hA]
    cases hc : keyMem m.allocations k with
    | true => exact h1.mpr hc
    | false =>
      rw [Bool.eq_false_iff]
      intro hx
      rw [hc] at h1
      exact Bool.noConfusion (h1.mp hx)
  · intro j hj
    have h4 := e4 j ' ' (by rw [List.length_replicate]; exact hj)
    have hM : m.defragment.memory.getD j ' ' =
        ((m.allocations.mergeSort (fun a b => decide (a.2.start ≤ b.2.start))).foldl
          defragStep (List.replicate m.memory.length '-', [], 0)).1.getD j ' ' := rfl
    rw [hM, h4]
    by_cases hin : j < sizeSum m.allocations
    · rw [if_pos ⟨Nat.zero_le _, by omega⟩, if_pos hin]
    · rw [if_neg (by omega), if_neg hin]
      rw [List.getD_eq_getElem?_getD, List.getElem?_replicate_of_lt hj]
      rfl
  · intro j hj
    rw [hA, packAllocs_covered]
    constructor
    · rintro ⟨_, h2⟩
      omega
    · intro h
      exact ⟨Nat.zero_le _, by omega⟩

/-- Witness for C2: in the fragmented size-5 region with handle 1 at
offset 0 and handle 3 at offset 2, defragmenting moves handle 3 to
offset 1 with its payload intact. -/
theorem C2_defragment_witness :
    lookup mgrD.defragment.allocations 3 =
      some { start := 1, size := 1, data := [""] } :=
  (C2_defragment mgrD
      ⟨by decide, by decide, by decide, by decide, by decide, by decide,
        by decide, by decide, by decide, by decide⟩).1 3
    { start := 2, size := 1, data := [""] } rfl

/-- C3: in every reachable state — i.e. after any sequence of public
operations on a freshly constructed manager — the ranges of any two
distinct live blocks are disjoint (no position lies in both), and every
live block's range lies within `[0, N)`. -/
theorem C3_disjoint_in_bounds (m : MemoryManager) (h : Reachable m) :
    (∀ p ∈ m.allocations, ∀ q ∈ m.allocations, p.1 ≠ q.1 →
      ∀ j : Nat, ¬ (p.2.start ≤ j ∧ j < p.2.start + p.2.size ∧
        q.2.start ≤ j ∧ j < q.2.start + q.2.size)) ∧
    (∀ p ∈ m.allocations, p.2.start + p.2.size ≤ m.size) := by
  have hWF := reachable_WF h
  refine ⟨?_, hWF.in_range⟩
  intro p hp q hq hne j hj
  have hpq : p ≠ q := fun he => hne (congrArg Prod.fst he)
  have hd := (hWF.disj.forall RangesDisjoint.symmRel) hp hq hpq
  unfold RangesDisjoint at hd
  omega

/-- Witness for C3 at a concrete reachable state (size-3 region after
one allocation): the single live block fits in the region. -/
theorem C3_disjoint_in_bounds_witness : 3 ≤ mgrB.size :=
  (C3_disjoint_in_bounds mgrB
    (Reachable.step mgrA (Op.allocOp 3) (Reachable.mk0 3 mgrA rfl))).2
    (1, { start := 0, size := 3, data := ["", "", ""] }) (by decide)

/-- C9: the occupancy array never desynchronizes from the block table:
in every reachable state it has one cell per region position, a position
holds `'X'` exactly when some live block's range covers it, and `'-'`
exactly when none does. -/
theorem C9_occupancy_sync (m : MemoryManager) (h : Reachable m) :
    m.memory.length = m.size ∧
    ∀ j < m.size,
      (m.memory.getD j ' ' = 'X' ↔ covered m.allocations j) ∧
      (m.memory.getD j ' ' = '-' ↔ ¬ covered m.allocations j) := by
  have hWF := reachable_WF h
  refine ⟨hWF.mem_len, ?_⟩
  intro j hj
  have hs := hWF.sync j (by rw [hWF.mem_len]; exact hj)
  by_cases hc : covered m.allocations j
  · rw [hs, if_pos hc]
    exact ⟨⟨fun _ => hc, fun _ => rfl⟩,
      ⟨fun he => absurd he (by decide), fun hnc => absurd hc hnc⟩⟩
  · rw [hs, if_neg hc]
    exact ⟨⟨fun he => absurd he (by decide), fun hcc => absurd hcc hc⟩,
      ⟨fun _ => hc, fun _ => rfl⟩⟩

/-- Witness for C9 at a concrete reachable state. -/
theorem C9_occupancy_sync_witness :
    mgrB.memory.length = mgrB.size :=
  (C9_occupancy_sync mgrB
    (Reachable.step mgrA (Op.allocOp 3) (Reachable.mk0 3 mgrA rfl))).1

/-- C10: in every reachable state, every live block's payload list has
length equal to its size field. -/
theorem C10_payload_length (m : MemoryManager) (h : Reachable m) :
    ∀ p ∈ m.allocations, p.2.data.length = p.2.size :=
  fun p hp => (reachable_WF h).data_len p hp

/-- Witness for C10 at a concrete reachable state (after an allocation
and a write): the live block's payload length equals its size. -/
theorem C10_payload_length_witness :
    ({ start := 0, size := 3, data := ["a", "", ""] } : MemoryBlock).data.length =
      ({ start := 0, size := 3, data := ["a", "", ""] } : MemoryBlock).size :=
  C10_payload_length (applyOp mgrB (Op.writeOp 1 0 "a"))
    (Reachable.step mgrB (Op.writeOp 1 0 "a")
      (Reachable.step mgrA (Op.allocOp 3) (Reachable.mk0 3 mgrA rfl)))
    (1, { start := 0, size := 3, data := ["a", "", ""] }) (by decide)

/-- C4 as stated is false: for the in-bounds empty string (`len(d) = 0`,
allowed by `len(d) <= block.size - offset`), the write succeeds but the
following `read(h, o, 0)` fails with `InvalidArgument` instead of
returning `d`. -/
theorem C4_round_trip_counterexample :
    (mgrB.write 1 0 "").1 = .ok () ∧
    ((mgrB.write 1 0 "").2.read 1 0 (("" : String).length : Int)).1 =
      .error .invalidArgument ∧
    ((mgrB.write 1 0 "").2.read 1 0 (("" : String).length : Int)).1 ≠
      .ok "" := by
  refine ⟨rfl, rfl, ?_⟩
  intro hc
  rw [show ((mgrB.write 1 0 "").2.read 1 0 (("" : String).length : Int)).1 =
    Except.error MemErr.invalidArgument from rfl] at hc
  exact Except.noConfusion hc

/-- C4 amended: for a live handle, an in-bounds offset and *nonempty*
data (`1 ≤ len(d)`, since a zero-length read is rejected with
`InvalidArgument`), a successful `write(h, o, d)` followed by
`read(h, o, len(d))` returns exactly `d`. -/
theorem C4_round_trip (m : MemoryManager) (hWF : WF m) (k : Nat) (b : MemoryBlock)
    (hb : lookup m.allocations k = some b) (o : Int) (d : String)
    (ho : 0 ≤ o) (ho2 : o < (b.size : Int))
    (hcap : (d.length : Int) ≤ (b.size : Int) - o) (hlen : 1 ≤ d.length) :
    (m.write k o d).1 = .ok () ∧
    ((m.write k o d).2.read k o (d.length : Int)).1 = .ok d := by
  have h1 : ¬ (o < 0 ∨ o ≥ (b.size : Int)) := by omega
  have h2 : ¬ ((d.length : Int) > (b.size : Int) - o) := by omega
  have hmem := lookup_mem hb
  have hir : b.start + b.size ≤ m.size := hWF.in_range _ hmem
  have hml := hWF.mem_len
  have hdl : b.data.length = b.size := hWF.data_len _ hmem
  rw [write_ok hb h1 h2]
  refine ⟨rfl, ?_⟩
  have hl2 : lookup ({ m with allocations := (dictSet m.allocations k
      ({ b with data := writeChars b.data o.toNat d.data })) } :
      MemoryManager).allocations k =
      some { b with data := writeChars b.data o.toNat d.data } :=
    lookup_dictSet_self
  rw [read_ok hl2 (by omega) (by omega) ?h3 ?h4 ?h5]
  case h3 =>
    show ¬ o ≥ ((m.memory.length : Int))
    omega
  case h4 =>
    show ¬ o + (d.length : Int) > ((m.memory.length : Int))
    omega
  case h5 =>
    show ¬ (o < 0 ∨ o + (d.length : Int) > ((b.size : Int)))
    omega
  show Except.ok (String.join (((writeChars b.data o.toNat d.data).drop
    o.toNat).take ((d.length : Int)).toNat)) = Except.ok d
  have htn : ((d.length : Int)).toNat = d.data.length := rfl
  have hddl : d.data.length = d.length := rfl
  rw [htn, slice_writeChars b.data o.toNat d.data (by omega),
    join_map_toString]

/-- Witness for the amended C4 at a concrete state: write then read
returns the written data. -/
theorem C4_round_trip_witness :
    ((mgrB.write 1 0 "ab").2.read 1 0 (("ab" : String).length : Int)).1 =
      .ok "ab" :=
  (C4_round_trip mgrB
      ⟨by decide, by decide, by decide, by decide, by decide, by decide,
        by decide, by decide, by decide, by decide⟩ 1
      { start := 0, size := 3, data := ["", "", ""] } rfl 0 "ab"
      (by decide) (by decide) (by decide) (by decide)).2

/-- C5 as stated is false: for a known handle with negative offset and
non-positive length the code checks `offset < 0` before `length <= 0`
and reports `OutOfBounds`, not `InvalidArgument`. -/
theorem C5_read_error_order_counterexample :
    (mgrB.read 1 (-1) 0).1 = .error .outOfBounds ∧
    (mgrB.read 1 (-1) 0).1 ≠ .error .invalidArgument := by
  refine ⟨rfl, ?_⟩
  intro hc
  rw [show (mgrB.read 1 (-1) 0).1 = Except.error MemErr.outOfBounds from rfl] at hc
  injection hc with hc
  exact MemErr.noConfusion hc

/-- C5 amended: `read` checks the handle first (`UnknownHandle`), then
`offset >= 0` (`OutOfBounds`), then `length > 0` (`InvalidArgument`),
then the range against the block (`OutOfBounds`); in particular a call
with a known handle, negative offset and non-positive length reports
`OutOfBounds`. -/
theorem C5_read_error_order (m : MemoryManager) (k : Nat) (o len : Int) :
    (keyMem m.allocations k = false →
      (m.read k o len).1 = .error .unknownHandle) ∧
    (keyMem m.allocations k = true → o < 0 →
      (m.read k o len).1 = .error .outOfBounds) ∧
    (keyMem m.allocations k = true → 0 ≤ o → len ≤ 0 →
      (m.read k o len).1 = .error .invalidArgument) ∧
    (∀ b : MemoryBlock, lookup m.allocations k = some b → 0 ≤ o → 0 < len →
      o + len > (b.size : Int) → (m.read k o len).1 = .error .outOfBounds) := by
  refine ⟨?_, ?_, ?_, ?_⟩
  · intro hk
    unfold MemoryManager.read
    rw [if_pos (by rw [hk]; simp)]
  · intro hk hneg
    unfold MemoryManager.read
    rw [if_neg (by rw [hk]; simp), if_pos hneg]
  · intro hk hpos hl
    unfold MemoryManager.read
    rw [if_neg (by rw [hk]; simp), if_neg (by omega), if_pos hl]
  · intro b hb hpos hl hover
    unfold MemoryManager.read
    rw [if_neg (by rw [keyMem_of_lookup hb]; simp), if_neg (by omega),
      if_neg (by omega)]
    by_cases h3 : o ≥ (m.memory.length : Int)
    · rw [if_pos h3]
    · rw [if_neg h3]
      by_cases h4 : o + len > (m.memory.length : Int)
      · rw [if_pos h4]
      · rw [if_neg h4, hb]
        dsimp only
        rw [if_pos (Or.inr hover)]

/-- Witness for the amended C5: a known handle with offset 0 and length
0 yields `InvalidArgument`; the same handle with offset -1 and length 0
yields `OutOfBounds`. -/
theorem C5_read_error_order_witness :
    (mgrB.read 1 0 0).1 = .error .invalidArgument :=
  (C5_read_error_order mgrB 1 0 0).2.2.1 rfl (by decide) (by decide)

/-- C6: allocate, free, write and read are atomic on failure — whenever
a call returns an error, the post state equals the pre state exactly. -/
theorem C6_atomic_failure :
    (∀ (m : MemoryManager) (s : Int) (e : MemErr),
      (m.alloc s).1 = .error e → (m.alloc s).2 = m) ∧
    (∀ (m : MemoryManager) (k : Nat) (e : MemErr),
      (m.free k).1 = .error e → (m.free k).2 = m) ∧
    (∀ (m : MemoryManager) (k : Nat) (o : Int) (d : String) (e : MemErr),
      (m.write k o d).1 = .error e → (m.write k o d).2 = m) ∧
    (∀ (m : MemoryManager) (k : Nat) (o len : Int) (e : MemErr),
      (m.read k o len).1 = .error e → (m.read k o len).2 = m) := by
  refine ⟨?_, ?_, ?_, ?_⟩
  · intro m s e h
    exact alloc_error_elim h
  · intro m k e h
    exact free_error_elim h
  · intro m k o d e h
    exact write_error_elim h
  · intro m k o len e _
    exact read_snd m k o len

/-- Witness for C6: an invalid-size allocation fails and leaves the
state unchanged. -/
theorem C6_atomic_failure_witness : (mgrA.alloc 0).2 = mgrA :=
  C6_atomic_failure.1 mgrA 0 .invalidArgument rfl

/-- C7: the next-handle counter starts at 1, increments by exactly one
on every successful allocation and never otherwise; and once a handle
has been freed in a reachable state, it is absent from the table in
every later state and no later successful allocation ever returns it. -/
theorem C7_handles :
    (∀ (s : Int) (m : MemoryManager),
      MemoryManager.mkInit s = .ok m → m.next_id = 1) ∧
    (∀ (m : MemoryManager) (s : Int) (r : Nat), (m.alloc s).1 = .ok r →
      r = m.next_id ∧ (m.alloc s).2.next_id = m.next_id + 1) ∧
    (∀ (m : MemoryManager) (s : Int) (e : MemErr), (m.alloc s).1 = .error e →
      (m.alloc s).2.next_id = m.next_id) ∧
    (∀ (m : MemoryManager) (k : Nat), (m.free k).2.next_id = m.next_id) ∧
    (∀ m : MemoryManager, m.defragment.next_id = m.next_id) ∧
    (∀ (m : MemoryManager) (k : Nat) (o : Int) (d : String),
      (m.write k o d).2.next_id = m.next_id) ∧
    (∀ (m : MemoryManager) (k : Nat) (o len : Int),
      (m.read k o len).2.next_id = m.next_id) ∧
    (∀ m : MemoryManager, Reachable m → ∀ h : Nat, (m.free h).1 = .ok true →
      ∀ ops : List Op,
        keyMem (ops.foldl applyOp (m.free h).2).allocations h = false ∧
        ∀ (s : Int) (r : Nat),
          ((ops.foldl applyOp (m.free h).2).alloc s).1 = .ok r → r ≠ h) := by
  refine ⟨?_, ?_, ?_, ?_, ?_, ?_, ?_, ?_⟩
  · intro s m h
    unfold MemoryManager.mkInit at h
    by_cases hs : s ≤ 0
    · rw [if_pos hs] at h
      exact absurd h (by simp)
    · rw [if_neg hs] at h
      injection h with h
      rw [← h]
  · intro m s r h
    obtain ⟨h1, h2, _⟩ := alloc_ok_elim h
    exact ⟨h1, h2⟩
  · intro m s e h
    rw [alloc_error_elim h]
  · intro m k
    by_cases hk : keyMem m.allocations k
    · cases hl : lookup m.allocations k with
      | none =>
        unfold MemoryManager.free
        rw [if_neg (by rw [hk]; simp), hl]
      | some block => rw [free_found hl]
    · rw [free_unknown (by simpa using hk)]
  · intro m
    rfl
  · intro m k o d
    cases hl : lookup m.allocations k with
    | none => rw [write_unknown hl]
    | some block =>
      by_cases h1 : o < 0 ∨ o ≥ (block.size : Int)
      · rw [write_oob hl h1]
      · by_cases h2 : (d.length : Int) > (block.size : Int) - o
        · rw [write_cap hl h1 h2]
        · rw [write_ok hl h1 h2]
  · intro m k o len
    rw [read_snd]
  · intro m hr h hfree ops
    have hWF := reachable_WF hr
    obtain ⟨block, hlook, hstate⟩ := free_ok_true_elim hfree
    have hmem := lookup_mem hlook
    have hlt : h < m.next_id := hWF.handle_lt _ hmem
    have hstart : Avoided h (m.free h).2 := by
      rw [hstate]
      exact ⟨hlt, keyMem_dictPop_self⟩
    have hpres : ∀ (l : List Op) (m' : MemoryManager), Avoided h m' →
        Avoided h (l.foldl applyOp m') := by
      intro l
      induction l with
      | nil => intro m' ha; exact ha
      | cons op rest ih =>
        intro m' ha
        rw [List.foldl_cons]
        exact ih _ (Avoided_applyOp ha op)
    have hfin := hpres ops _ hstart
    refine ⟨hfin.2, ?_⟩
    intro s r hok
    obtain ⟨he, _, _⟩ := alloc_ok_elim hok
    have := hfin.1
    omega

/-- Witness for C7's no-recycle part: after freeing handle 1 and
allocating again, handle 1 is still absent from the table. -/
theorem C7_handles_witness :
    keyMem ([Op.allocOp 1].foldl applyOp (mgrB.free 1).2).allocations 1 = false :=
  (C7_handles.2.2.2.2.2.2.2 mgrB
    (Reachable.step mgrA (Op.allocOp 3) (Reachable.mk0 3 mgrA rfl)) 1 rfl
    [Op.allocOp 1]).1

/-- C8: a successful write modifies only the target block's payload
positions `[offset, offset+len(data))`: the occupancy array, the
next-handle counter, the region size, every other table entry, and the
target block's start, size, payload length, and payload cells outside
the written range are all unchanged. -/
theorem C8_write_frame (m : MemoryManager) (k : Nat) (b : MemoryBlock)
    (hb : lookup m.allocations k = some b) (o : Int) (d : String)
    (ho : 0 ≤ o) (ho2 : o < (b.size : Int))
    (hcap : (d.length : Int) ≤ (b.size : Int) - o) :
    (m.write k o d).1 = .ok () ∧
    (m.write k o d).2.memory = m.memory ∧
    (m.write k o d).2.next_id = m.next_id ∧
    (m.write k o d).2.size = m.size ∧
    (∀ k' : Nat, k' ≠ k →
      lookup (m.write k o d).2.allocations k' = lookup m.allocations k') ∧
    ∃ b', lookup (m.write k o d).2.allocations k = some b' ∧
      b'.start = b.start ∧ b'.size = b.size ∧
      b'.data.length = b.data.length ∧
      ∀ j < b.data.length, (j < o.toNat ∨ o.toNat + d.length ≤ j) →
        b'.data.getD j "" = b.data.getD j "" := by
  have h1 : ¬ (o < 0 ∨ o ≥ (b.size : Int)) := by omega
  have h2 : ¬ ((d.length : Int) > (b.size : Int) - o) := by omega
  rw [write_ok hb h1 h2]
  refine ⟨rfl, rfl, rfl, rfl, ?_, ?_⟩
  · intro k' hk'
    exact lookup_dictSet_ne hk'
  · refine ⟨_, lookup_dictSet_self, rfl, rfl, writeChars_length _ _ _, ?_⟩
    intro j hj hout
    rw [writeChars_getD]
    rw [if_neg (by
      have hddl : d.data.length = d.length := rfl
      omega)]

/-- Witness for C8: writing one character to a block leaves the
occupancy array unchanged. -/
theorem C8_write_frame_witness :
    (mgrB.write 1 0 "a").2.memory = mgrB.memory :=
  (C8_write_frame mgrB 1 { start := 0, size := 3, data := ["", "", ""] } rfl
    0 "a" (by decide) (by decide) (by decide)).2.1

end VMM
